import Mathlib

/-!
Verification development for the crypto-vault repository.

The development shallowly embeds the container codec and the encryption
engine (src/base64.ts, src/binary.ts, src/compression.ts, src/container.ts,
src/encryption.ts).  Byte buffers (Uint8Array) are lists of `Fin 256`.
Platform primitives that the code consumes but does not implement — the
WebCrypto AEAD cipher, TextEncoder/TextDecoder, JSON.stringify/JSON.parse,
and the gzip backend — are modelled as explicit capability parameters, with
their contracts stated as hypotheses of the theorems that need them.
-/

namespace CryptoVault

/-- A byte, the value stored in one Uint8Array cell. -/
abbrev Byte := Fin 256

/-- A Uint8Array value: a finite sequence of bytes. -/
abbrev Bytes := List Byte

/-- Store a Nat into a byte cell the way a JS typed array does (mod 256). -/
def mkByte (n : Nat) : Byte := ⟨n % 256, Nat.mod_lt _ (by omega)⟩

/-! ## constants.ts -/

/-- constants.ts MAGIC = "WCV1", given here by its UTF-8 bytes
(TextEncoder always encodes UTF-8, and the tag is plain ASCII). -/
def MAGICbytes : Bytes := [87, 67, 86, 49]

/-- constants.ts VERSION = 1. -/
def VERSION : Nat := 1

/-- constants.ts ALG = "AES-GCM". -/
def ALG : String := "AES-GCM"

/-- constants.ts IV_BYTES = 12. -/
def IV_BYTES : Nat := 12

/-- constants.ts DEFAULT_CHUNK_SIZE = 1024 * 1024. -/
def DEFAULT_CHUNK_SIZE : Nat := 1024 * 1024

/-- encryption.ts local constant CHUNK_COMPRESS_THRESHOLD = 64 * 1024 * 1024. -/
def CHUNK_COMPRESS_THRESHOLD : Nat := 64 * 1024 * 1024

/-! ## binary.ts -/

/-- binary.ts concatU8: concatenation of byte arrays (the variadic JS helper
applied to a list of parts). -/
def concatU8 (parts : List Bytes) : Bytes := parts.flatten

/-- binary.ts u32be: big-endian 4-byte encoding of a number.  The JS shift
operators act on the operand taken to 32 bits, hence the reduction mod 2^32;
each `& 0xff` masking is the mod 256 applied by `mkByte`. -/
def u32be (n : Nat) : Bytes :=
  let m := n % 4294967296
  [mkByte (m / 16777216), mkByte (m / 65536), mkByte (m / 256), mkByte m]

/-- binary.ts readU32be: big-endian read of four bytes at an offset.  A read
past the end of the array yields `undefined`, which the JS shift and or
operators coerce to 0; `getD _ 0` reproduces that. -/
def readU32be (u8 : Bytes) (offset : Nat) : Nat :=
  (u8.getD offset 0).val * 16777216 + (u8.getD (offset + 1) 0).val * 65536 +
    (u8.getD (offset + 2) 0).val * 256 + (u8.getD (offset + 3) 0).val

/-! ## base64.ts

The source marshals the bytes into a JS binary string in 32 KiB windows and
calls the platform `btoa`/`atob`.  The windowed marshalling is observably the
plain per-byte mapping, so `btoa` is modelled directly on the byte list;
`atob` is modelled on the padded character list that `fromBase64Url` always
produces (a length that is a multiple of four, no whitespace). -/

/-- The standard base64 alphabet used by btoa and atob. -/
def b64Alphabet : List Char :=
  [ 'A', 'B', 'C', 'D', 'E', 'F', 'G', 'H', 'I', 'J', 'K', 'L', 'M',
    'N', 'O', 'P', 'Q', 'R', 'S', 'T', 'U', 'V', 'W', 'X', 'Y', 'Z',
    'a', 'b', 'c', 'd', 'e', 'f', 'g', 'h', 'i', 'j', 'k', 'l', 'm',
    'n', 'o', 'p', 'q', 'r', 's', 't', 'u', 'v', 'w', 'x', 'y', 'z',
    '0', '1', '2', '3', '4', '5', '6', '7', '8', '9', '+', '/' ]

/-- The base64 digit for a sextet value. -/
def b64Char (n : Nat) : Char := b64Alphabet.getD n 'A'

/-- The sextet value of a base64 digit, none for a character outside the
alphabet (atob raises on such input). -/
def b64Index (c : Char) : Option Nat := b64Alphabet.indexOf? c

/-- Platform btoa on a byte sequence: emit four base64 digits per group of
three bytes, padding the final partial group with `=`. -/
def btoa : Bytes → List Char
  | [] => []
  | [a] => [b64Char (a.val / 4), b64Char (a.val % 4 * 16), '=', '=']
  | [a, b] =>
    [b64Char (a.val / 4), b64Char (a.val % 4 * 16 + b.val / 16),
      b64Char (b.val % 16 * 4), '=']
  | a :: b :: c :: rest =>
    b64Char (a.val / 4) :: b64Char (a.val % 4 * 16 + b.val / 16) ::
      b64Char (b.val % 16 * 4 + c.val / 64) :: b64Char (c.val % 64) :: btoa rest

/-- The `replace(/=+$/g, "")` step: remove the trailing run of `=`. -/
def stripTrailingEq (l : List Char) : List Char :=
  (l.reverse.dropWhile (· == '=')).reverse

/-- The `replace(/\x2b/g, "-").replace(/\x2f/g, "_")` step, per character. -/
def toUrlChar (c : Char) : Char :=
  if c == '+' then '-' else if c == '/' then '_' else c

/-- The inverse replacement done by fromBase64Url, per character. -/
def fromUrlChar (c : Char) : Char :=
  if c == '-' then '+' else if c == '_' then '/' else c

/-- base64.ts toBase64Url: btoa, URL-safe alphabet substitution, padding
stripped. -/
def toBase64Url (u8 : Bytes) : List Char :=
  stripTrailingEq ((btoa u8).map toUrlChar)

/-- The padding that fromBase64Url appends: the JS expression is the slice of
the string made of three `=` starting at `(length + 3) % 4`. -/
def padFor (n : Nat) : List Char :=
  match n % 4 with
  | 0 => []
  | 1 => ['=', '=', '=']
  | 2 => ['=', '=']
  | _ => ['=']

/-- Decoding of the final four-character base64 group, honouring padding.
Leftover low bits in the last digit are discarded, as in the forgiving
base64 decode that atob implements. -/
def decodeLastGroup (c0 c1 c2 c3 : Char) : Option Bytes :=
  if c3 == '=' then
    if c2 == '=' then do
      let s0 ← b64Index c0
      let s1 ← b64Index c1
      some [mkByte (s0 * 4 + s1 / 16)]
    else do
      let s0 ← b64Index c0
      let s1 ← b64Index c1
      let s2 ← b64Index c2
      some [mkByte (s0 * 4 + s1 / 16), mkByte (s1 % 16 * 16 + s2 / 4)]
  else do
    let s0 ← b64Index c0
    let s1 ← b64Index c1
    let s2 ← b64Index c2
    let s3 ← b64Index c3
    some [mkByte (s0 * 4 + s1 / 16), mkByte (s1 % 16 * 16 + s2 / 4),
      mkByte (s2 % 4 * 64 + s3)]

/-- Platform atob on the padded input fromBase64Url builds: the length is a
multiple of four, padding may appear only in the final group, any character
outside the alphabet fails. -/
def atobGroups : List Char → Option Bytes
  | [] => some []
  | c0 :: c1 :: c2 :: c3 :: rest =>
    if rest.isEmpty then decodeLastGroup c0 c1 c2 c3
    else do
      let s0 ← b64Index c0
      let s1 ← b64Index c1
      let s2 ← b64Index c2
      let s3 ← b64Index c3
      let tail ← atobGroups rest
      some (mkByte (s0 * 4 + s1 / 16) :: mkByte (s1 % 16 * 16 + s2 / 4) ::
        mkByte (s2 % 4 * 64 + s3) :: tail)
  | _ => none

/-- base64.ts fromBase64Url: undo the URL-safe substitution, restore padding,
atob.  A failure of atob (invalid input) is `none`. -/
def fromBase64Url (s : List Char) : Option Bytes :=
  atobGroups ((s.map fromUrlChar) ++ padFor s.length)

/-! ## Round-trip facts for the binary and base64 codecs -/

theorem readU32be_u32be_append (n : Nat) (rest : Bytes) :
    readU32be (u32be n ++ rest) 0 = n % 4294967296 := by
  simp [readU32be, u32be, mkByte, List.getD_cons_zero, List.getD_cons_succ]
  omega

/-- Induction principle matching the three-byte grouping of btoa. -/
theorem tripleInd {α : Type} {P : List α → Prop} (h0 : P []) (h1 : ∀ a, P [a])
    (h2 : ∀ a b, P [a, b])
    (h3 : ∀ a b c rest, P rest → P (a :: b :: c :: rest)) : ∀ l, P l
  | [] => h0
  | [a] => h1 a
  | [a, b] => h2 a b
  | a :: b :: c :: rest => h3 a b c rest (tripleInd h0 h1 h2 h3 rest)

theorem b64Char_mem (n : Nat) : b64Char n ∈ b64Alphabet := by
  unfold b64Char
  rcases Nat.lt_or_ge n b64Alphabet.length with h | h
  · rw [List.getD_eq_getElem _ _ h]
    exact List.getElem_mem h
  · rw [List.getD_eq_default _ _ h]
    decide

theorem b64Char_ne_eq (n : Nat) : b64Char n ≠ '=' := by
  have hall : ∀ c ∈ b64Alphabet, c ≠ '=' := by decide
  exact hall _ (b64Char_mem n)

theorem b64Char_beq_eq_false (n : Nat) : (b64Char n == '=') = false := by
  simp [b64Char_ne_eq n]

theorem b64Index_b64Char (n : Nat) (h : n < 64) : b64Index (b64Char n) = some n := by
  have hall : ∀ m : Fin 64, b64Index (b64Char m.val) = some m.val := by decide
  exact hall ⟨n, h⟩

theorem fromUrl_toUrl_of_mem (c : Char) (h : c ∈ b64Alphabet) :
    fromUrlChar (toUrlChar c) = c := by
  have hall : ∀ x ∈ b64Alphabet, fromUrlChar (toUrlChar x) = x := by decide
  exact hall c h

theorem toUrl_beq_eq (c : Char) : (toUrlChar c == '=') = (c == '=') := by
  unfold toUrlChar
  split_ifs with h1 h2
  · cases eq_of_beq h1
    decide
  · cases eq_of_beq h2
    decide
  · rfl

theorem dropWhile_map {α β : Type} (f : α → β) (p : β → Bool) :
    ∀ l : List α, (l.map f).dropWhile p = (l.dropWhile (fun a => p (f a))).map f
  | [] => rfl
  | a :: l => by
    cases h : p (f a) <;>
      simp [List.dropWhile_cons, h, dropWhile_map f p l]

theorem dropWhile_eq_self_of {α : Type} (p : α → Bool) :
    ∀ l : List α, (∀ c ∈ l, p c = false) → l.dropWhile p = l
  | [], _ => rfl
  | a :: l, h => by
    have ha : p a = false := h a (by simp)
    simp [List.dropWhile_cons, ha]

theorem stripTrailingEq_map_toUrl (l : List Char) :
    stripTrailingEq (l.map toUrlChar) = (stripTrailingEq l).map toUrlChar := by
  have hfun : (fun c => (toUrlChar c == '=')) = (fun c : Char => (c == '=')) := by
    funext c
    exact toUrl_beq_eq c
  unfold stripTrailingEq
  rw [← List.map_reverse, dropWhile_map, hfun, List.map_reverse]

theorem stripTrailingEq_append (g R : List Char)
    (hg : ∀ c ∈ g, (c == '=') = false) :
    stripTrailingEq (g ++ R) = g ++ stripTrailingEq R := by
  unfold stripTrailingEq
  rw [List.reverse_append, List.dropWhile_append]
  by_cases h : (R.reverse.dropWhile (· == '=')).isEmpty
  · rw [if_pos h]
    rw [List.isEmpty_iff] at h
    rw [h, dropWhile_eq_self_of _ _ (by intro c hc; exact hg c (List.mem_reverse.mp hc))]
    simp
  · rw [if_neg h]
    rw [List.reverse_append]
    simp

theorem stripTrailingEq_eq_nil_iff (l : List Char) :
    stripTrailingEq l = [] ↔ ∀ c ∈ l, c = '=' := by
  unfold stripTrailingEq
  rw [List.reverse_eq_nil_iff, List.dropWhile_eq_nil_iff]
  constructor
  · intro h c hc
    exact eq_of_beq (h c (List.mem_reverse.mpr hc))
  · intro h c hc
    exact beq_iff_eq.mpr (h c (List.mem_reverse.mp hc))

theorem btoa_chars : ∀ u8 : Bytes, ∀ ch ∈ btoa u8, ch ∈ b64Alphabet ∨ ch = '=' := by
  refine tripleInd ?_ ?_ ?_ ?_
  · intro ch hch
    simp [btoa] at hch
  · intro a ch hch
    simp only [btoa, List.mem_cons, List.mem_singleton, List.not_mem_nil, or_false] at hch
    rcases hch with h | h | h | h
    all_goals first
      | (exact Or.inl (h ▸ b64Char_mem _))
      | (exact Or.inr h)
  · intro a b ch hch
    simp only [btoa, List.mem_cons, List.mem_singleton, List.not_mem_nil, or_false] at hch
    rcases hch with h | h | h | h
    all_goals first
      | (exact Or.inl (h ▸ b64Char_mem _))
      | (exact Or.inr h)
  · intro a b c rest ih ch hch
    simp only [btoa, List.mem_cons] at hch
    rcases hch with h | h | h | h | h
    · exact Or.inl (h ▸ b64Char_mem _)
    · exact Or.inl (h ▸ b64Char_mem _)
    · exact Or.inl (h ▸ b64Char_mem _)
    · exact Or.inl (h ▸ b64Char_mem _)
    · exact ih ch h

theorem stripTrailingEq_mem {l : List Char} {c : Char}
    (h : c ∈ stripTrailingEq l) : c ∈ l := by
  unfold stripTrailingEq at h
  rw [List.mem_reverse] at h
  exact List.mem_reverse.mp ((List.dropWhile_sublist _).mem h)

theorem map_fromUrl_toUrl_strip_btoa (u8 : Bytes) :
    ((stripTrailingEq (btoa u8)).map toUrlChar).map fromUrlChar =
      stripTrailingEq (btoa u8) := by
  rw [List.map_map]
  have : ∀ c ∈ stripTrailingEq (btoa u8), (fromUrlChar ∘ toUrlChar) c = c := by
    intro c hc
    rcases btoa_chars u8 c (stripTrailingEq_mem hc) with h | h
    · exact fromUrl_toUrl_of_mem c h
    · cases h
      decide
  rw [List.map_congr_left this]
  exact List.map_id' _

theorem padFor_add_four (n : Nat) : padFor (4 + n) = padFor n := by
  have h : (4 + n) % 4 = n % 4 := by omega
  simp [padFor, h]

theorem strip_four_two (x0 x1 : Char) (h0 : (x0 == '=') = false)
    (h1 : (x1 == '=') = false) :
    stripTrailingEq [x0, x1, '=', '='] = [x0, x1] := by
  simp [stripTrailingEq, List.dropWhile, h1]

theorem strip_four_three (x0 x1 x2 : Char) (h0 : (x0 == '=') = false)
    (h1 : (x1 == '=') = false) (h2 : (x2 == '=') = false) :
    stripTrailingEq [x0, x1, x2, '='] = [x0, x1, x2] := by
  simp [stripTrailingEq, List.dropWhile, h1, h2]

theorem strip_btoa_ne_nil : ∀ u8 : Bytes, u8 ≠ [] → stripTrailingEq (btoa u8) ≠ [] := by
  intro u8 hne h
  rw [stripTrailingEq_eq_nil_iff] at h
  match u8, hne with
  | [a], _ =>
    exact b64Char_ne_eq (a.val / 4) (h (b64Char (a.val / 4)) (by simp [btoa]))
  | [a, b], _ =>
    exact b64Char_ne_eq (a.val / 4) (h (b64Char (a.val / 4)) (by simp [btoa]))
  | a :: b :: c :: rest, _ =>
    exact b64Char_ne_eq (a.val / 4) (h (b64Char (a.val / 4)) (by simp [btoa]))

theorem atob_strip_btoa : ∀ u8 : Bytes,
    atobGroups (stripTrailingEq (btoa u8) ++
      padFor (stripTrailingEq (btoa u8)).length) = some u8 := by
  refine tripleInd rfl ?_ ?_ ?_
  · intro a
    have ha := a.isLt
    have e0 : b64Index (b64Char (a.val / 4)) = some (a.val / 4) :=
      b64Index_b64Char _ (by omega)
    have e1 : b64Index (b64Char (a.val % 4 * 16)) = some (a.val % 4 * 16) :=
      b64Index_b64Char _ (by omega)
    rw [show btoa [a] = [b64Char (a.val / 4), b64Char (a.val % 4 * 16), '=', '='] from rfl,
      strip_four_two _ _ (b64Char_beq_eq_false _) (b64Char_beq_eq_false _)]
    simp only [List.length_cons, List.length_nil]
    rw [show padFor 2 = ['=', '='] from rfl]
    simp only [List.cons_append, List.nil_append]
    rw [show atobGroups [b64Char (a.val / 4), b64Char (a.val % 4 * 16), '=', '='] =
      decodeLastGroup (b64Char (a.val / 4)) (b64Char (a.val % 4 * 16)) '=' '=' from rfl]
    have harith0 : mkByte (a.val / 4 * 4 + a.val % 4 * 16 / 16) = a := by
      apply Fin.ext
      simp [mkByte]
      omega
    simp only [decodeLastGroup, beq_self_eq_true, if_true, e0, e1, Option.bind_eq_bind,
      Option.some_bind]
    rw [harith0]
  · intro a b
    have ha := a.isLt
    have hb := b.isLt
    have e0 : b64Index (b64Char (a.val / 4)) = some (a.val / 4) :=
      b64Index_b64Char _ (by omega)
    have e1 : b64Index (b64Char (a.val % 4 * 16 + b.val / 16)) =
        some (a.val % 4 * 16 + b.val / 16) := b64Index_b64Char _ (by omega)
    have e2 : b64Index (b64Char (b.val % 16 * 4)) = some (b.val % 16 * 4) :=
      b64Index_b64Char _ (by omega)
    rw [show btoa [a, b] = [b64Char (a.val / 4), b64Char (a.val % 4 * 16 + b.val / 16),
      b64Char (b.val % 16 * 4), '='] from rfl,
      strip_four_three _ _ _ (b64Char_beq_eq_false _) (b64Char_beq_eq_false _)
        (b64Char_beq_eq_false _)]
    simp only [List.length_cons, List.length_nil]
    rw [show padFor 3 = ['='] from rfl]
    simp only [List.cons_append, List.nil_append]
    rw [show atobGroups [b64Char (a.val / 4), b64Char (a.val % 4 * 16 + b.val / 16),
      b64Char (b.val % 16 * 4), '='] =
      decodeLastGroup (b64Char (a.val / 4)) (b64Char (a.val % 4 * 16 + b.val / 16))
        (b64Char (b.val % 16 * 4)) '=' from rfl]
    have harith0 : mkByte (a.val / 4 * 4 + (a.val % 4 * 16 + b.val / 16) / 16) = a := by
      apply Fin.ext
      simp [mkByte]
      omega
    have harith1 : mkByte ((a.val % 4 * 16 + b.val / 16) % 16 * 16 +
        b.val % 16 * 4 / 4) = b := by
      apply Fin.ext
      simp [mkByte]
      omega
    simp only [decodeLastGroup, beq_self_eq_true, if_true, b64Char_beq_eq_false,
      Bool.false_eq_true, if_false, e0, e1, e2, Option.bind_eq_bind, Option.some_bind]
    rw [harith0, harith1]
  · intro a b c rest ih
    have ha := a.isLt
    have hb := b.isLt
    have hc := c.isLt
    have e0 : b64Index (b64Char (a.val / 4)) = some (a.val / 4) :=
      b64Index_b64Char _ (by omega)
    have e1 : b64Index (b64Char (a.val % 4 * 16 + b.val / 16)) =
        some (a.val % 4 * 16 + b.val / 16) := b64Index_b64Char _ (by omega)
    have e2 : b64Index (b64Char (b.val % 16 * 4 + c.val / 64)) =
        some (b.val % 16 * 4 + c.val / 64) := b64Index_b64Char _ (by omega)
    have e3 : b64Index (b64Char (c.val % 64)) = some (c.val % 64) :=
      b64Index_b64Char _ (by omega)
    have harith0 : mkByte (a.val / 4 * 4 + (a.val % 4 * 16 + b.val / 16) / 16) = a := by
      apply Fin.ext
      simp [mkByte]
      omega
    have harith1 : mkByte ((a.val % 4 * 16 + b.val / 16) % 16 * 16 +
        (b.val % 16 * 4 + c.val / 64) / 4) = b := by
      apply Fin.ext
      simp [mkByte]
      omega
    have harith2 : mkByte ((b.val % 16 * 4 + c.val / 64) % 4 * 64 + c.val % 64) = c := by
      apply Fin.ext
      simp [mkByte]
      omega
    rw [show btoa (a :: b :: c :: rest) =
      [b64Char (a.val / 4), b64Char (a.val % 4 * 16 + b.val / 16),
        b64Char (b.val % 16 * 4 + c.val / 64), b64Char (c.val % 64)] ++ btoa rest from rfl]
    rw [stripTrailingEq_append _ _ (by
      intro x hx
      simp only [List.mem_cons, List.mem_singleton, List.not_mem_nil, or_false] at hx
      rcases hx with h | h | h | h <;> exact h ▸ b64Char_beq_eq_false _)]
    rw [show ([b64Char (a.val / 4), b64Char (a.val % 4 * 16 + b.val / 16),
        b64Char (b.val % 16 * 4 + c.val / 64), b64Char (c.val % 64)] ++
        stripTrailingEq (btoa rest)).length =
      4 + (stripTrailingEq (btoa rest)).length from by simp; omega]
    rw [padFor_add_four]
    rcases List.eq_nil_or_concat rest with hrest | ⟨_, _, hrest⟩
    · subst hrest
      rw [show stripTrailingEq (btoa []) = [] from rfl]
      rw [show padFor (List.length ([] : List Char)) = [] from rfl]
      simp only [List.cons_append, List.nil_append, List.append_nil]
      rw [show atobGroups [b64Char (a.val / 4), b64Char (a.val % 4 * 16 + b.val / 16),
        b64Char (b.val % 16 * 4 + c.val / 64), b64Char (c.val % 64)] =
        decodeLastGroup (b64Char (a.val / 4)) (b64Char (a.val % 4 * 16 + b.val / 16))
          (b64Char (b.val % 16 * 4 + c.val / 64)) (b64Char (c.val % 64)) from rfl]
      simp only [decodeLastGroup, b64Char_beq_eq_false, Bool.false_eq_true, if_false,
        e0, e1, e2, e3, Option.bind_eq_bind, Option.some_bind]
      rw [harith0, harith1, harith2]
    · have hne : rest ≠ [] := by
        subst hrest
        simp
      have hS : stripTrailingEq (btoa rest) ≠ [] := strip_btoa_ne_nil rest hne
      have hSE : (stripTrailingEq (btoa rest) ++
          padFor (stripTrailingEq (btoa rest)).length).isEmpty = false := by
        rcases h : stripTrailingEq (btoa rest) with _ | ⟨x, xs⟩
        · exact absurd h hS
        · simp
      simp only [List.cons_append, List.nil_append]
      rw [show ∀ t, atobGroups (b64Char (a.val / 4) :: b64Char (a.val % 4 * 16 + b.val / 16) ::
        b64Char (b.val % 16 * 4 + c.val / 64) :: b64Char (c.val % 64) :: t) =
        (if t.isEmpty then decodeLastGroup (b64Char (a.val / 4))
            (b64Char (a.val % 4 * 16 + b.val / 16))
            (b64Char (b.val % 16 * 4 + c.val / 64)) (b64Char (c.val % 64))
          else do
            let s0 ← b64Index (b64Char (a.val / 4))
            let s1 ← b64Index (b64Char (a.val % 4 * 16 + b.val / 16))
            let s2 ← b64Index (b64Char (b.val % 16 * 4 + c.val / 64))
            let s3 ← b64Index (b64Char (c.val % 64))
            let tail ← atobGroups t
            some (mkByte (s0 * 4 + s1 / 16) :: mkByte (s1 % 16 * 16 + s2 / 4) ::
              mkByte (s2 % 4 * 64 + s3) :: tail)) from fun t => rfl]
      rw [hSE]
      simp only [Bool.false_eq_true, if_false, e0, e1, e2, e3, Option.bind_eq_bind,
        Option.some_bind, ih, harith0, harith1, harith2]

theorem fromBase64Url_toBase64Url (u8 : Bytes) :
    fromBase64Url (toBase64Url u8) = some u8 := by
  unfold fromBase64Url toBase64Url
  rw [stripTrailingEq_map_toUrl, map_fromUrl_toUrl_strip_btoa, List.length_map]
  exact atob_strip_btoa u8

/-! ## Errors

One constructor per distinct throw site reached by the embedded code paths.
The spec names a TruncatedContainer failure mode; the source has no throw
site for it (the metadata slice is clamped by subarray), so no constructor
corresponds to it. -/

/-- The errors the embedded operations can raise. -/
inductive VaultError : Type
  /-- container.ts: unrecognized container format (magic). -/
  | unrecognizedFormat
  /-- container.ts: container version not supported. -/
  | unsupportedVersion
  /-- container.ts: algorithm not supported. -/
  | unsupportedAlgorithm
  /-- container.ts: JSON.parse raised on the metadata slice. -/
  | malformedMetadata
  /-- base64.ts: atob raised on invalid base64 input. -/
  | invalidBase64
  /-- encryption.ts decryptToString: content is chunked, use decryptToBlob. -/
  | contentChunked
  /-- encryption.ts decryptToString: content type is not text. -/
  | notText
  /-- encryption.ts decryptToBlob: content type is not blob. -/
  | notBlob
  /-- encryption.ts: missing IV in container metadata. -/
  | missingIv
  /-- encryption.ts decryptToBlob: corrupted chunk container (len). -/
  | corruptedChunkLen
  /-- encryption.ts decryptToBlob: corrupted chunk container (data). -/
  | corruptedChunkData
  /-- WebCrypto subtle.decrypt raised: authentication tag mismatch. -/
  | authenticationFailed
  /-- compression.ts maybeDecompress: compression bindings not available. -/
  | compressionUnavailable
  /-- encryption.ts ensureNotAborted: DOMException AbortError. -/
  | aborted
deriving DecidableEq, Repr

deriving instance DecidableEq for Except

/-! ## compression.ts and env/compression.ts -/

/-- env/compression.ts CompressionBinding: a runtime gzip backend.  The
backend functions are opaque capabilities. -/
structure CompressionBinding : Type where
  btype : String
  compress : Bytes → Bytes
  decompress : Bytes → Bytes

/-- compression.ts maybeCompress: compress when enabled and a binding is
available, otherwise pass the input through with `compressed = false`.
`binding` is the resolved result of getCompressionBinding. -/
def maybeCompress (binding : Option CompressionBinding) (u8 : Bytes)
    (enabled : Bool) : Bool × Bytes :=
  if !enabled then (false, u8)
  else
    match binding with
    | none => (false, u8)
    | some b => (true, b.compress u8)

/-- compression.ts maybeDecompress: pass through when not compressed, raise
when compressed but no binding is available. -/
def maybeDecompress (binding : Option CompressionBinding) (u8 : Bytes)
    (compressed : Bool) : Except VaultError Bytes :=
  if !compressed then .ok u8
  else
    match binding with
    | none => .error .compressionUnavailable
    | some b => .ok (b.decompress u8)

/-! ## container.ts -/

/-- The content kind stored in metadata: "text" or "blob". -/
inductive ContentType : Type
  | text
  | blob
deriving DecidableEq, Repr

/-- container.ts BaseMeta: metadata stored alongside encrypted payloads.
Optional JS fields are `Option`; absent means the key is not present in the
serialized JSON record. -/
structure BaseMeta : Type where
  type : ContentType
  alg : String
  mime : Option String := none
  compressed : Option Bool := none
  single : Option Bool := none
  iv : Option (List Char) := none
  size : Option Nat := none
  chunkSize : Option Nat := none
  chunked : Option Bool := none
deriving DecidableEq, Repr

/-- The JSON capability pair used by the container codec:
`stringify` is textEncode(JSON.stringify(meta)) and `parse` is
JSON.parse(textDecode(bytes)), `none` when JSON.parse raises. -/
structure MetaCodec : Type where
  stringify : BaseMeta → Bytes
  parse : Bytes → Option BaseMeta

/-- container.ts PackedContainer: the parsed form of a container. -/
structure PackedContainer : Type where
  compressed : Bool
  isChunked : Bool
  meta : BaseMeta
  payloadU8 : Bytes
deriving DecidableEq, Repr

/-- container.ts packContainer, up to the final base64url step: magic,
version, flags (bit0 compressed, bit1 chunked), algorithm id 0x01, 4-byte
big-endian metadata length, metadata bytes, payload. -/
def packContainerBytes (mc : MetaCodec) (compressed isChunked : Bool)
    (meta : BaseMeta) (payloadU8 : Bytes) : Bytes :=
  let magic := MAGICbytes
  let version := [mkByte VERSION]
  let flags := (if compressed then 1 else 0) ||| (if isChunked then 2 else 0)
  let flagsU8 := [mkByte flags]
  let algId := [mkByte 1]
  let metaU8 := mc.stringify meta
  let metaLen := u32be metaU8.length
  concatU8 [magic, version, flagsU8, algId, metaLen, metaU8, payloadU8]

/-- container.ts packContainer: serialize and base64url-encode. -/
def packContainer (mc : MetaCodec) (compressed isChunked : Bool)
    (meta : BaseMeta) (payloadU8 : Bytes) : List Char :=
  toBase64Url (packContainerBytes mc compressed isChunked meta payloadU8)

/-- container.ts unpackContainer, after base64url decoding.  The magic
comparison in the source decodes four bytes as UTF-8 and compares with the
ASCII string "WCV1"; since UTF-8 decoding of a four-byte slice yields "WCV1"
exactly when the bytes are its UTF-8 encoding, the check is byte equality.
Reads past the end of the buffer produce `undefined`, which fails the
version and algorithm equality checks just as the 0 default does here, and
`subarray` clamps to the buffer bounds as `take`/`drop` do. -/
def unpackContainerBytes (mc : MetaCodec) (bin : Bytes) :
    Except VaultError PackedContainer :=
  if bin.take 4 ≠ MAGICbytes then .error .unrecognizedFormat
  else if (bin.getD 4 0).val ≠ VERSION then .error .unsupportedVersion
  else
    let flags := (bin.getD 5 0).val
    let compressed : Bool := decide (flags &&& 1 ≠ 0)
    let isChunked : Bool := decide (flags &&& 2 ≠ 0)
    if (bin.getD 6 0).val ≠ 1 then .error .unsupportedAlgorithm
    else
      let metaLen := readU32be bin 7
      match mc.parse ((bin.drop 11).take metaLen) with
      | none => .error .malformedMetadata
      | some meta => .ok ⟨compressed, isChunked, meta, bin.drop (11 + metaLen)⟩

/-- container.ts unpackContainer: base64url-decode then parse. -/
def unpackContainer (mc : MetaCodec) (b64u : List Char) :
    Except VaultError PackedContainer :=
  match fromBase64Url b64u with
  | none => .error .invalidBase64
  | some bin => unpackContainerBytes mc bin

/-! ## Container codec round-trip -/

theorem flags_and_one (c ch : Bool) :
    decide ((mkByte ((if c then 1 else 0) ||| (if ch then 2 else 0))).val &&& 1 ≠ 0) = c := by
  cases c <;> cases ch <;> decide

theorem flags_and_two (c ch : Bool) :
    decide ((mkByte ((if c then 1 else 0) ||| (if ch then 2 else 0))).val &&& 2 ≠ 0) = ch := by
  cases c <;> cases ch <;> decide

theorem packContainerBytes_explicit (mc : MetaCodec) (c ch : Bool) (m : BaseMeta)
    (p : Bytes) :
    packContainerBytes mc c ch m p =
      87 :: 67 :: 86 :: 49 :: mkByte VERSION ::
        mkByte ((if c then 1 else 0) ||| (if ch then 2 else 0)) :: mkByte 1 ::
        (u32be (mc.stringify m).length ++ (mc.stringify m ++ p)) := by
  unfold packContainerBytes concatU8 MAGICbytes
  simp [List.flatten]

theorem unpackContainerBytes_magic_fail (mc : MetaCodec) (bin : Bytes)
    (h : bin.take 4 ≠ MAGICbytes) :
    unpackContainerBytes mc bin = .error .unrecognizedFormat := by
  unfold unpackContainerBytes
  rw [if_pos h]

/-- Evaluation of unpackContainerBytes on a buffer with an explicit header:
the remaining behaviour is a function of the version, flags and algorithm
bytes and of the tail holding metadata length, metadata and payload. -/
theorem unpackContainerBytes_header (mc : MetaCodec) (v f a : Byte) (tail : Bytes) :
    unpackContainerBytes mc (87 :: 67 :: 86 :: 49 :: v :: f :: a :: tail) =
      if v.val ≠ VERSION then .error .unsupportedVersion
      else if a.val ≠ 1 then .error .unsupportedAlgorithm
      else
        match mc.parse ((tail.drop 4).take (readU32be tail 0)) with
        | none => .error .malformedMetadata
        | some meta =>
          .ok ⟨decide (f.val &&& 1 ≠ 0), decide (f.val &&& 2 ≠ 0), meta,
            tail.drop (4 + readU32be tail 0)⟩ := by
  have hdropL : ((87 : Byte) :: 67 :: 86 :: 49 :: v :: f :: a :: tail).drop
      (11 + readU32be tail 0) = tail.drop (4 + readU32be tail 0) := by
    have h2 := List.drop_drop (4 + readU32be tail 0) 7
      ((87 : Byte) :: 67 :: 86 :: 49 :: v :: f :: a :: tail)
    rw [show List.drop 7 ((87 : Byte) :: 67 :: 86 :: 49 :: v :: f :: a :: tail) =
      tail from rfl] at h2
    rw [show 11 + readU32be tail 0 = 7 + (4 + readU32be tail 0) from by omega]
    exact h2.symm
  unfold unpackContainerBytes
  rw [if_neg (not_not_intro (show List.take 4
    ((87 : Byte) :: 67 :: 86 :: 49 :: v :: f :: a :: tail) = MAGICbytes from rfl))]
  rw [show List.getD ((87 : Byte) :: 67 :: 86 :: 49 :: v :: f :: a :: tail) 4 0 =
    v from rfl]
  rw [show List.getD ((87 : Byte) :: 67 :: 86 :: 49 :: v :: f :: a :: tail) 5 0 =
    f from rfl]
  rw [show List.getD ((87 : Byte) :: 67 :: 86 :: 49 :: v :: f :: a :: tail) 6 0 =
    a from rfl]
  rw [show readU32be ((87 : Byte) :: 67 :: 86 :: 49 :: v :: f :: a :: tail) 7 =
    readU32be tail 0 from rfl]
  rw [show ((87 : Byte) :: 67 :: 86 :: 49 :: v :: f :: a :: tail).drop 11 =
    tail.drop 4 from rfl]
  simp only [hdropL]

theorem unpack_pack_bytes (mc : MetaCodec) (c ch : Bool) (m : BaseMeta) (p : Bytes)
    (hparse : mc.parse (mc.stringify m) = some m)
    (hlen : (mc.stringify m).length < 4294967296) :
    unpackContainerBytes mc (packContainerBytes mc c ch m p) = .ok ⟨c, ch, m, p⟩ := by
  rw [packContainerBytes_explicit, unpackContainerBytes_header]
  rw [if_neg (not_not_intro (show (mkByte VERSION).val = VERSION from rfl))]
  rw [if_neg (not_not_intro (show (mkByte 1).val = 1 from rfl))]
  have htail : readU32be (u32be (mc.stringify m).length ++ (mc.stringify m ++ p)) 0 =
      (mc.stringify m).length := by
    rw [readU32be_u32be_append, Nat.mod_eq_of_lt hlen]
  have hdrop4 : (u32be (mc.stringify m).length ++ (mc.stringify m ++ p)).drop 4 =
      mc.stringify m ++ p := List.drop_left' rfl
  rw [htail, hdrop4, List.take_left, hparse]
  have hpay : (u32be (mc.stringify m).length ++ (mc.stringify m ++ p)).drop
      (4 + (mc.stringify m).length) = p := by
    rw [← List.drop_drop, hdrop4, List.drop_left]
  rw [hpay, flags_and_one, flags_and_two]

theorem unpack_pack (mc : MetaCodec) (c ch : Bool) (m : BaseMeta) (p : Bytes)
    (hparse : mc.parse (mc.stringify m) = some m)
    (hlen : (mc.stringify m).length < 4294967296) :
    unpackContainer mc (packContainer mc c ch m p) = .ok ⟨c, ch, m, p⟩ := by
  unfold unpackContainer packContainer
  rw [fromBase64Url_toBase64Url]
  exact unpack_pack_bytes mc c ch m p hparse hlen

/-! ## encryption.ts

The engine consumes platform capabilities: the WebCrypto AEAD cipher for
some opaque key type, the resolved gzip binding, the `CompressionStream`
global probe that the chunked encrypt branch tests directly, the JSON
codec and the UTF-8 text codec.  They are collected in an environment
record.  Random IV generation (keys.ts randomIv) is an explicit argument:
`ivs i` is the IV drawn by the i-th randomIv() call of the operation.  The
cancellation signal is a predicate on check indices: `signal i` is the
aborted state of the AbortSignal at the operation's i-th ensureNotAborted
call.  aeadDecrypt returns `none` when subtle.decrypt rejects. -/

/-- The platform capabilities the encryption engine runs against. -/
structure VaultEnv (Key : Type) : Type where
  aeadEncrypt : Key → Bytes → Bytes → Bytes → Bytes
  aeadDecrypt : Key → Bytes → Bytes → Bytes → Option Bytes
  binding : Option CompressionBinding
  hasCompressionStream : Bool
  metaCodec : MetaCodec
  textEncode : String → Bytes
  textDecode : Bytes → String

/-- The default MIME type substituted for a falsy blob type. -/
def defaultMime : String := "application/octet-stream"

/-- A JS Blob as the engine sees it: contents plus MIME type tag. -/
structure Blob : Type where
  data : Bytes
  type : String
deriving DecidableEq, Repr

/-- The metadata object literal encryptString builds:
type "text", cipher name, base64url IV, compressed flag. -/
def textMeta (iv : Bytes) (compressed : Bool) : BaseMeta :=
  { type := ContentType.text, alg := ALG, iv := some (toBase64Url iv),
    compressed := some compressed }

/-- The metadata object literal of the single-shot branch of encryptBlob:
type "blob", cipher name, MIME type, compressed flag, single marker,
base64url IV, original size. -/
def blobSingleMeta (mime : String) (compressed : Bool) (iv : Bytes)
    (size : Nat) : BaseMeta :=
  { type := ContentType.blob, alg := ALG, mime := some mime,
    compressed := some compressed, single := some true,
    iv := some (toBase64Url iv), size := some size }

/-- The metadata object literal of the chunked branch of encryptBlob:
type "blob", cipher name, MIME type, engine-wide compressed flag, chunked
marker, chunk size, original size (no IV: one IV lives in each record). -/
def blobChunkedMeta (mime : String) (useCompression : Bool) (chunkSize size : Nat) :
    BaseMeta :=
  { type := ContentType.blob, alg := ALG, mime := some mime,
    compressed := some useCompression, chunked := some true,
    chunkSize := some chunkSize, size := some size }

/-- encryption.ts encryptString.  `iv` is the randomIv() result. -/
def encryptString {Key : Type} (env : VaultEnv Key) (key : Key) (iv : Bytes)
    (plainText : String) (compress : Bool) : List Char :=
  let preU8 := env.textEncode plainText
  let r := maybeCompress env.binding preU8 compress
  let aad := env.textEncode (ALG ++ "|text|v" ++ toString VERSION)
  let ct := env.aeadEncrypt key iv r.2 aad
  let meta := textMeta iv r.1
  packContainer env.metaCodec r.1 false meta ct

/-- encryption.ts decryptToString. -/
def decryptToString {Key : Type} (env : VaultEnv Key) (key : Key)
    (packedB64u : List Char) : Except VaultError String :=
  match unpackContainer env.metaCodec packedB64u with
  | .error e => .error e
  | .ok pc =>
    if pc.isChunked then .error .contentChunked
    else if pc.meta.type ≠ .text then .error .notText
    else
      match pc.meta.iv with
      | none => .error .missingIv
      | some ivStr =>
        if ivStr.isEmpty then .error .missingIv
        else
          match fromBase64Url ivStr with
          | none => .error .invalidBase64
          | some iv =>
            let aad := env.textEncode (ALG ++ "|text|v" ++ toString VERSION)
            match env.aeadDecrypt key iv pc.payloadU8 aad with
            | none => .error .authenticationFailed
            | some pt =>
              match maybeDecompress env.binding pt pc.compressed with
              | .error e => .error e
              | .ok u8 => .ok (env.textDecode u8)

/-- The for-loop of the chunked branch of encryption.ts encryptBlob, one
iteration per chunk index from `i` to `chunkCount`.  Each iteration checks
the signal, slices the window `[i * chunkSize, min ((i+1) * chunkSize, size))`,
optionally compresses it, encrypts it under a fresh IV and appends the
record `[4-byte length][IV][ciphertext]` to the payload parts. -/
def encryptBlobLoop {Key : Type} (env : VaultEnv Key) (key : Key) (ivs : Nat → Bytes)
    (data : Bytes) (chunkSize : Nat) (useCompression : Bool) (aad : Bytes)
    (signal : Nat → Bool) (i chunkCount : Nat) : Except VaultError (List Bytes) :=
  if i < chunkCount then
    if signal i then .error .aborted
    else
      let start := i * chunkSize
      let endPos := min (start + chunkSize) data.length
      let u8 := (data.drop start).take (endPos - start)
      let chunk := if useCompression then maybeCompress env.binding u8 true
        else (false, u8)
      let iv := ivs i
      let ct := env.aeadEncrypt key iv chunk.2 aad
      match encryptBlobLoop env key ivs data chunkSize useCompression aad signal
          (i + 1) chunkCount with
      | .error e => .error e
      | .ok rest => .ok ((u32be ct.length ++ iv ++ ct) :: rest)
  else .ok []
termination_by chunkCount - i

/-- encryption.ts encryptBlob.  The single-shot branch (size not above the
64 MiB threshold) uses `ivs 0`; the chunked branch ceils size / chunkSize
into a chunk count (the JS Math.ceil of the float quotient, exact for the
sizes a Blob can have) and runs the loop.  Note the chunked branch probes
the CompressionStream global directly instead of consulting the binding. -/
def encryptBlob {Key : Type} (env : VaultEnv Key) (key : Key) (ivs : Nat → Bytes)
    (blob : Blob) (compress : Bool) (chunkSize : Nat) (signal : Nat → Bool) :
    Except VaultError (List Char) :=
  let mime := if blob.type = "" then defaultMime else blob.type
  let size := blob.data.length
  let isLarge := decide (size > CHUNK_COMPRESS_THRESHOLD)
  let aad := env.textEncode (ALG ++ "|blob|v" ++ toString VERSION ++ "|" ++ mime)
  if !isLarge then
    if signal 0 then .error .aborted
    else
      let r := maybeCompress env.binding blob.data compress
      let iv := ivs 0
      let ct := env.aeadEncrypt key iv r.2 aad
      let meta := blobSingleMeta mime r.1 iv size
      .ok (packContainer env.metaCodec r.1 false meta ct)
  else
    let useCompression := compress && env.hasCompressionStream
    let chunkCount := (size + chunkSize - 1) / chunkSize
    match encryptBlobLoop env key ivs blob.data chunkSize useCompression aad signal
        0 chunkCount with
    | .error e => .error e
    | .ok parts =>
      let meta := blobChunkedMeta mime useCompression chunkSize size
      .ok (packContainer env.metaCodec useCompression true meta (concatU8 parts))

/-- The while-loop of the chunked branch of encryption.ts decryptToBlob:
one iteration per record, reading at `offset` and advancing by exactly
4 + IV_BYTES + length; `checkIdx` counts the ensureNotAborted checks.
Validation happens before slicing: a buffer too short for the length field
raises the len error, one too short for the announced record raises the
data error. -/
def decryptBlobLoop {Key : Type} (env : VaultEnv Key) (key : Key) (aad : Bytes)
    (compressed : Bool) (payloadU8 : Bytes) (signal : Nat → Bool)
    (offset checkIdx : Nat) : Except VaultError (List Bytes) :=
  if h : offset < payloadU8.length then
    if signal checkIdx then .error .aborted
    else if payloadU8.length < offset + 4 then .error .corruptedChunkLen
    else
      let clen := readU32be payloadU8 offset
      if payloadU8.length < offset + 4 + IV_BYTES + clen then .error .corruptedChunkData
      else
        let iv := (payloadU8.drop (offset + 4)).take IV_BYTES
        let ct := (payloadU8.drop (offset + 4 + IV_BYTES)).take clen
        match env.aeadDecrypt key iv ct aad with
        | none => .error .authenticationFailed
        | some pt =>
          match maybeDecompress env.binding pt compressed with
          | .error e => .error e
          | .ok u8 =>
            match decryptBlobLoop env key aad compressed payloadU8 signal
                (offset + 4 + IV_BYTES + clen) (checkIdx + 1) with
            | .error e => .error e
            | .ok rest => .ok (u8 :: rest)
  else .ok []
termination_by payloadU8.length - offset
decreasing_by
  simp only [IV_BYTES]
  omega

/-- The `meta.mime || "application/octet-stream"` fallback of decryptToBlob. -/
def metaMime (meta : BaseMeta) : String :=
  match meta.mime with
  | some s => if s = "" then defaultMime else s
  | none => defaultMime

/-- The single-shot branch body of encryption.ts decryptToBlob: signal
check, IV extraction from metadata, one AEAD decrypt, one optional
decompression (driven by the metadata compressed field). -/
def decryptBlobSingle {Key : Type} (env : VaultEnv Key) (key : Key)
    (meta : BaseMeta) (payloadU8 : Bytes) (mime : String) (aad : Bytes)
    (signal : Nat → Bool) : Except VaultError Blob :=
  if signal 0 then .error .aborted
  else
    match meta.iv with
    | none => .error .missingIv
    | some ivStr =>
      if ivStr.isEmpty then .error .missingIv
      else
        match fromBase64Url ivStr with
        | none => .error .invalidBase64
        | some iv =>
          match env.aeadDecrypt key iv payloadU8 aad with
          | none => .error .authenticationFailed
          | some pt =>
            match maybeDecompress env.binding pt (meta.compressed.getD false) with
            | .error e => .error e
            | .ok u8 => .ok ⟨u8, mime⟩

/-- encryption.ts decryptToBlob.  The single-shot branch is taken exactly
when the chunked flag is clear and the metadata `single` field is truthy;
every other container goes through the record loop. -/
def decryptToBlob {Key : Type} (env : VaultEnv Key) (key : Key)
    (packedB64u : List Char) (signal : Nat → Bool) : Except VaultError Blob :=
  match unpackContainer env.metaCodec packedB64u with
  | .error e => .error e
  | .ok pc =>
    if pc.meta.type ≠ .blob then .error .notBlob
    else
      let mime := metaMime pc.meta
      let aad := env.textEncode (ALG ++ "|blob|v" ++ toString VERSION ++ "|" ++ mime)
      if !pc.isChunked && pc.meta.single.getD false then
        decryptBlobSingle env key pc.meta pc.payloadU8 mime aad signal
      else
        match decryptBlobLoop env key aad pc.compressed pc.payloadU8 signal 0 0 with
        | .error e => .error e
        | .ok parts => .ok ⟨concatU8 parts, mime⟩

/-- One chunk record as assembled by encryptBlob and consumed by
decryptToBlob: length prefix, IV, ciphertext with tag. -/
def recordBytes (iv ct : Bytes) : Bytes := u32be ct.length ++ iv ++ ct

/-- The framing invariant the chunked decrypt loop enforces: from the front,
the buffer decomposes into records of a 4-byte big-endian length, IV_BYTES
of IV and exactly that many ciphertext bytes, with nothing left over. -/
def wellFramed (p : Bytes) : Bool :=
  if p.length = 0 then true
  else if p.length < 4 then false
  else
    let clen := readU32be p 0
    if h : p.length < 4 + IV_BYTES + clen then false
    else wellFramed (p.drop (4 + IV_BYTES + clen))
termination_by p.length
decreasing_by
  simp only [List.length_drop, IV_BYTES]
  omega

/-! ## Concrete capability instances

Executable stand-ins for the platform capabilities, used to instantiate
theorems at concrete inputs: an injective byte serialization of BaseMeta
with a matching parser in place of JSON, a pass-through cipher in place of
AES-GCM, and a code-unit text codec.  Each satisfies the capability laws
the theorems assume, at the inputs where they are applied. -/

/-- One byte per character; faithful on code points below 256. -/
def byteOfChar (c : Char) : Byte := mkByte c.toNat

/-- The character of a byte value. -/
def charOfByte (b : Byte) : Char := Char.ofNat b.val

/-- Length-prefixed string serialization. -/
def encStr (s : String) : Bytes := mkByte s.length :: s.data.map byteOfChar

/-- Length-prefixed character-list serialization. -/
def encChars (l : List Char) : Bytes := mkByte l.length :: l.map byteOfChar

/-- One-byte boolean serialization. -/
def encBool (b : Bool) : Bytes := [if b then 1 else 0]

/-- Four-byte number serialization. -/
def encNat (n : Nat) : Bytes := u32be n

/-- Presence-byte-prefixed serialization of an optional field. -/
def encOpt {α : Type} (f : α → Bytes) : Option α → Bytes
  | none => [0]
  | some a => 1 :: f a

/-- Concrete stand-in for textEncode(JSON.stringify meta): a tagged
field-by-field byte serialization. -/
def encodeMeta (m : BaseMeta) : Bytes :=
  (if m.type = .text then [0] else [1])
  ++ encStr m.alg
  ++ encOpt encStr m.mime
  ++ encOpt encBool m.compressed
  ++ encOpt encBool m.single
  ++ encOpt encChars m.iv
  ++ encOpt encNat m.size
  ++ encOpt encNat m.chunkSize
  ++ encOpt encBool m.chunked

/-- Split off a fixed number of bytes, failing when too few remain. -/
def decTake (n : Nat) (bs : Bytes) : Option (Bytes × Bytes) :=
  if n ≤ bs.length then some (bs.take n, bs.drop n) else none

/-- Split off one byte. -/
def decByte : Bytes → Option (Byte × Bytes)
  | [] => none
  | b :: r => some (b, r)

/-- Parse a length-prefixed string. -/
def decStr (bs : Bytes) : Option (String × Bytes) := do
  let (l, r) ← decByte bs
  let (cs, r2) ← decTake l.val r
  some (String.mk (cs.map charOfByte), r2)

/-- Parse a length-prefixed character list. -/
def decChars (bs : Bytes) : Option (List Char × Bytes) := do
  let (l, r) ← decByte bs
  let (cs, r2) ← decTake l.val r
  some (cs.map charOfByte, r2)

/-- Parse a one-byte boolean. -/
def decBool (bs : Bytes) : Option (Bool × Bytes) := do
  let (b, r) ← decByte bs
  some (decide (b.val ≠ 0), r)

/-- Parse a four-byte number. -/
def decNat (bs : Bytes) : Option (Nat × Bytes) := do
  let (g, r) ← decTake 4 bs
  some (readU32be g 0, r)

/-- Parse an optional field behind its presence byte. -/
def decOpt {α : Type} (f : Bytes → Option (α × Bytes)) (bs : Bytes) :
    Option (Option α × Bytes) := do
  let (t, r) ← decByte bs
  if t.val = 0 then some (none, r)
  else do
    let (a, r2) ← f r
    some (some a, r2)

/-- Concrete stand-in for JSON.parse(textDecode bytes): the parser matching
encodeMeta. -/
def decodeMeta (bs : Bytes) : Option BaseMeta := do
  let (tb, r0) ← decByte bs
  let (alg, r1) ← decStr r0
  let (mime, r2) ← decOpt decStr r1
  let (compressed, r3) ← decOpt decBool r2
  let (single, r4) ← decOpt decBool r3
  let (iv, r5) ← decOpt decChars r4
  let (size, r6) ← decOpt decNat r5
  let (chunkSize, r7) ← decOpt decNat r6
  let (chunked, _r8) ← decOpt decBool r7
  some ⟨(if tb.val = 0 then ContentType.text else ContentType.blob),
    alg, mime, compressed, single, iv, size, chunkSize, chunked⟩

/-- The concrete JSON capability used to instantiate theorems. -/
def testMetaCodec : MetaCodec where
  stringify := encodeMeta
  parse := decodeMeta

/-- A concrete identity gzip binding. -/
def idBinding : CompressionBinding where
  btype := ALG
  compress := fun u8 => u8
  decompress := fun u8 => u8

/-- A pass-through capability environment: identity cipher, no compression
backend available, code-unit text codec. -/
def idEnv : VaultEnv Unit where
  aeadEncrypt := fun _ _ d _ => d
  aeadDecrypt := fun _ _ d _ => some d
  binding := none
  hasCompressionStream := false
  metaCodec := testMetaCodec
  textEncode := fun s => s.data.map byteOfChar
  textDecode := fun bs => String.mk (bs.map charOfByte)

/-- idEnv with the identity gzip binding resolved and the CompressionStream
global present. -/
def idEnvZip : VaultEnv Unit :=
  { idEnv with binding := some idBinding, hasCompressionStream := true }

/-- A twelve-byte IV sample. -/
def iv12 : Bytes := List.replicate 12 0

/-- A sample plaintext. -/
def sampleText : String := "Hello vault!"

/-! ## Supporting lemmas for the engine theorems -/

/-- Decompressing what maybeCompress produced, under the flag it reported,
recovers the input whenever the binding inverts its own compression. -/
theorem maybeDecompress_maybeCompress (binding : Option CompressionBinding)
    (u8 : Bytes) (enabled : Bool)
    (hcomp : ∀ bi, binding = some bi → bi.decompress (bi.compress u8) = u8) :
    maybeDecompress binding (maybeCompress binding u8 enabled).2
      (maybeCompress binding u8 enabled).1 = .ok u8 := by
  unfold maybeCompress maybeDecompress
  cases enabled with
  | false => simp
  | true =>
    cases hb : binding with
    | none => simp
    | some bi => simp [hcomp bi hb]

/-- A base64url rendering of a nonempty byte sequence is nonempty. -/
theorem toBase64Url_ne_nil {u8 : Bytes} (h : u8 ≠ []) : toBase64Url u8 ≠ [] := by
  intro hnil
  have hrt := fromBase64Url_toBase64Url u8
  rw [hnil] at hrt
  rw [show fromBase64Url [] = some [] from rfl] at hrt
  exact h (Option.some.injEq _ _ ▸ hrt).symm

/-! ## Claims -/

/-- C7: unpackContainer inverts packContainer: same compressed flag, same
chunked flag, equal metadata, identical payload bytes — provided the JSON
capability parses its own rendering of the metadata and that rendering
fits the 4-byte length field. -/
theorem c7_container_roundtrip (mc : MetaCodec) (compressed isChunked : Bool)
    (meta : BaseMeta) (payloadU8 : Bytes)
    (hparse : mc.parse (mc.stringify meta) = some meta)
    (hlen : (mc.stringify meta).length < 4294967296) :
    unpackContainer mc (packContainer mc compressed isChunked meta payloadU8) =
      .ok ⟨compressed, isChunked, meta, payloadU8⟩ :=
  unpack_pack mc compressed isChunked meta payloadU8 hparse hlen

/-- A small sample metadata record. -/
def metaSmall : BaseMeta := { type := ContentType.text, alg := ALG }

/-- Witness for C7 at a concrete codec, flags, metadata and payload. -/
theorem c7_container_roundtrip_witness :
    testMetaCodec.parse (testMetaCodec.stringify metaSmall) = some metaSmall ∧
    (testMetaCodec.stringify metaSmall).length < 4294967296 ∧
    unpackContainer testMetaCodec
        (packContainer testMetaCodec true false metaSmall [1, 2, 3]) =
      .ok ⟨true, false, metaSmall, [1, 2, 3]⟩ :=
  ⟨by decide, by decide,
    c7_container_roundtrip testMetaCodec true false metaSmall [1, 2, 3]
      (by decide) (by decide)⟩

/-- C1: decryptToString inverts encryptString on every plaintext, for both
compress options, assuming the AEAD capability inverts itself on this key
and IV, the gzip binding (when resolved) inverts itself, the UTF-8 codec
round-trips the plaintext, and the JSON capability parses its own rendering
of the text metadata. -/
theorem c1_text_roundtrip {Key : Type} (env : VaultEnv Key) (key : Key) (iv : Bytes)
    (s : String) (compress : Bool)
    (hiv : iv.length = IV_BYTES)
    (haead : ∀ d a, env.aeadDecrypt key iv (env.aeadEncrypt key iv d a) a = some d)
    (hcomp : ∀ bi, env.binding = some bi →
      bi.decompress (bi.compress (env.textEncode s)) = env.textEncode s)
    (htext : env.textDecode (env.textEncode s) = s)
    (hjson : ∀ b : Bool, env.metaCodec.parse (env.metaCodec.stringify (textMeta iv b)) =
      some (textMeta iv b))
    (hjlen : ∀ b : Bool, (env.metaCodec.stringify (textMeta iv b)).length < 4294967296) :
    decryptToString env key (encryptString env key iv s compress) = .ok s := by
  have hne : toBase64Url iv ≠ [] := by
    apply toBase64Url_ne_nil
    intro h
    rw [h] at hiv
    simp [IV_BYTES] at hiv
  simp only [encryptString, decryptToString]
  generalize hg : maybeCompress env.binding (env.textEncode s) compress = r
  obtain ⟨cflag, cdata⟩ := r
  dsimp only
  have hdec : maybeDecompress env.binding cdata cflag = .ok (env.textEncode s) := by
    have h2 := maybeDecompress_maybeCompress env.binding (env.textEncode s) compress hcomp
    rw [hg] at h2
    exact h2
  rw [unpack_pack env.metaCodec cflag false (textMeta iv cflag) _
    (hjson cflag) (hjlen cflag)]
  simp only [textMeta, List.isEmpty_eq_true, hne, if_false, Bool.false_eq_true,
    fromBase64Url_toBase64Url, haead, hdec, htext]
  simp

/-- Witness for C1 at the pass-through environment, a concrete IV and
plaintext, with compression requested. -/
theorem c1_text_roundtrip_witness :
    iv12.length = IV_BYTES ∧
    decryptToString idEnv () (encryptString idEnv () iv12 sampleText true) =
      .ok sampleText :=
  ⟨by decide,
    c1_text_roundtrip idEnv () iv12 sampleText true (by decide)
      (fun d a => rfl)
      (fun bi h => by simp [idEnv] at h)
      (by decide)
      (fun b => by cases b <;> decide)
      (fun b => by cases b <;> decide)⟩

/-- C4: on a well-formed container, corrupting the four magic bytes, or the
version byte to any value other than 1, or the algorithm byte to any value
other than 0x01, each makes unpackContainer fail with the corresponding
distinct error — and this is independent of the JSON capability the decoder
carries, since the checks run before metadata is parsed. -/
theorem c4_format_validation (mc : MetaCodec) (c ch : Bool) (m : BaseMeta)
    (p : Bytes) :
    (∀ mc' : MetaCodec, ∀ m4 : Bytes, m4.length = 4 → m4 ≠ MAGICbytes →
      unpackContainer mc'
          (toBase64Url (m4 ++ (packContainerBytes mc c ch m p).drop 4)) =
        .error .unrecognizedFormat) ∧
    (∀ mc' : MetaCodec, ∀ v : Byte, v.val ≠ VERSION →
      unpackContainer mc'
          (toBase64Url ((packContainerBytes mc c ch m p).take 4 ++
            v :: (packContainerBytes mc c ch m p).drop 5)) =
        .error .unsupportedVersion) ∧
    (∀ mc' : MetaCodec, ∀ a : Byte, a.val ≠ 1 →
      unpackContainer mc'
          (toBase64Url ((packContainerBytes mc c ch m p).take 6 ++
            a :: (packContainerBytes mc c ch m p).drop 7)) =
        .error .unsupportedAlgorithm) := by
  refine ⟨?_, ?_, ?_⟩
  · intro mc' m4 hm4len hm4ne
    unfold unpackContainer
    rw [fromBase64Url_toBase64Url]
    apply unpackContainerBytes_magic_fail
    rw [List.take_left' hm4len]
    exact hm4ne
  · intro mc' v hv
    rw [packContainerBytes_explicit]
    unfold unpackContainer
    rw [fromBase64Url_toBase64Url]
    rw [show ((87 : Byte) :: 67 :: 86 :: 49 :: mkByte VERSION ::
        mkByte ((if c then 1 else 0) ||| (if ch then 2 else 0)) :: mkByte 1 ::
        (u32be (mc.stringify m).length ++ (mc.stringify m ++ p))).take 4 ++
        v :: ((87 : Byte) :: 67 :: 86 :: 49 :: mkByte VERSION ::
        mkByte ((if c then 1 else 0) ||| (if ch then 2 else 0)) :: mkByte 1 ::
        (u32be (mc.stringify m).length ++ (mc.stringify m ++ p))).drop 5 =
        87 :: 67 :: 86 :: 49 :: v ::
        mkByte ((if c then 1 else 0) ||| (if ch then 2 else 0)) :: mkByte 1 ::
        (u32be (mc.stringify m).length ++ (mc.stringify m ++ p)) from rfl]
    dsimp only
    rw [unpackContainerBytes_header]
    rw [if_pos hv]
  · intro mc' a ha
    rw [packContainerBytes_explicit]
    unfold unpackContainer
    rw [fromBase64Url_toBase64Url]
    rw [show ((87 : Byte) :: 67 :: 86 :: 49 :: mkByte VERSION ::
        mkByte ((if c then 1 else 0) ||| (if ch then 2 else 0)) :: mkByte 1 ::
        (u32be (mc.stringify m).length ++ (mc.stringify m ++ p))).take 6 ++
        a :: ((87 : Byte) :: 67 :: 86 :: 49 :: mkByte VERSION ::
        mkByte ((if c then 1 else 0) ||| (if ch then 2 else 0)) :: mkByte 1 ::
        (u32be (mc.stringify m).length ++ (mc.stringify m ++ p))).drop 7 =
        87 :: 67 :: 86 :: 49 :: mkByte VERSION ::
        mkByte ((if c then 1 else 0) ||| (if ch then 2 else 0)) :: a ::
        (u32be (mc.stringify m).length ++ (mc.stringify m ++ p)) from rfl]
    dsimp only
    rw [unpackContainerBytes_header]
    rw [if_neg (not_not_intro (show (mkByte VERSION).val = VERSION from rfl))]
    rw [if_pos ha]

/-- Witness for C4: the three corruptions at a concrete container. -/
theorem c4_format_validation_witness :
    ([0, 0, 0, 0] : Bytes).length = 4 ∧ ([0, 0, 0, 0] : Bytes) ≠ MAGICbytes ∧
    ((7 : Byte).val ≠ VERSION) ∧ ((9 : Byte).val ≠ 1) ∧
    unpackContainer testMetaCodec
        (toBase64Url (([0, 0, 0, 0] : Bytes) ++
          (packContainerBytes testMetaCodec true false metaSmall [1, 2, 3]).drop 4)) =
      .error .unrecognizedFormat ∧
    unpackContainer testMetaCodec
        (toBase64Url ((packContainerBytes testMetaCodec true false metaSmall [1, 2, 3]).take 4 ++
          (7 : Byte) :: (packContainerBytes testMetaCodec true false metaSmall [1, 2, 3]).drop 5)) =
      .error .unsupportedVersion ∧
    unpackContainer testMetaCodec
        (toBase64Url ((packContainerBytes testMetaCodec true false metaSmall [1, 2, 3]).take 6 ++
          (9 : Byte) :: (packContainerBytes testMetaCodec true false metaSmall [1, 2, 3]).drop 7)) =
      .error .unsupportedAlgorithm :=
  ⟨by decide, by decide, by decide, by decide,
    (c4_format_validation testMetaCodec true false metaSmall [1, 2, 3]).1
      testMetaCodec [0, 0, 0, 0] (by decide) (by decide),
    (c4_format_validation testMetaCodec true false metaSmall [1, 2, 3]).2.1
      testMetaCodec 7 (by decide),
    (c4_format_validation testMetaCodec true false metaSmall [1, 2, 3]).2.2
      testMetaCodec 9 (by decide)⟩

/-- A container whose header is valid but whose 4-byte metadata length field
announces one byte more than the buffer holds past the header. -/
def c5input : Bytes :=
  MAGICbytes ++ mkByte 1 :: mkByte 0 :: mkByte 1 ::
    (u32be ((encodeMeta metaSmall).length + 1) ++ encodeMeta metaSmall)

/-- C5 counterexample: the metadata length of `c5input` exceeds the bytes
remaining after the 11-byte prefix, yet unpackContainer does not fail at
all — subarray clamps the metadata slice, the clamped slice parses, and the
result is a successful unpack with an empty payload.  No TruncatedContainer
failure exists in the decoder. -/
theorem c5_counterexample :
    c5input.take 4 = MAGICbytes ∧
    (c5input.getD 4 0).val = VERSION ∧
    (c5input.getD 6 0).val = 1 ∧
    c5input.length < 11 + readU32be c5input 7 ∧
    unpackContainerBytes testMetaCodec c5input =
      .ok ⟨false, false, metaSmall, []⟩ := by
  refine ⟨by decide, by decide, by decide, by decide, by decide⟩

/-- C5 amended: when the metadata length field reaches past the end of the
buffer, the slice is clamped to the remaining bytes; unpackContainer then
either succeeds with the metadata parsed from that clamped slice and an
empty payload, or fails with the same metadata parse error that malformed
metadata produces.  No distinct truncation error is raised. -/
theorem c5_meta_clamped (mc : MetaCodec) (bin : Bytes)
    (hmagic : bin.take 4 = MAGICbytes)
    (hver : (bin.getD 4 0).val = VERSION)
    (halg : (bin.getD 6 0).val = 1)
    (hlen : bin.length ≤ 11 + readU32be bin 7) :
    unpackContainerBytes mc bin =
      match mc.parse (bin.drop 11) with
      | none => .error .malformedMetadata
      | some meta => .ok ⟨decide ((bin.getD 5 0).val &&& 1 ≠ 0),
          decide ((bin.getD 5 0).val &&& 2 ≠ 0), meta, []⟩ := by
  have htake : (bin.drop 11).take (readU32be bin 7) = bin.drop 11 := by
    apply List.take_of_length_le
    rw [List.length_drop]
    omega
  have hdrop : bin.drop (11 + readU32be bin 7) = [] := by
    apply List.drop_eq_nil_of_le
    omega
  unfold unpackContainerBytes
  simp only [hmagic, hver, halg, htake, hdrop, ne_eq, not_true_eq_false,
    if_false, ite_false]

/-! ## Chunk loop lemmas -/

theorem getD_drop {α : Type} (l : List α) (n i : Nat) (d : α) :
    (l.drop n).getD i d = l.getD (n + i) d := by
  rw [List.getD_eq_getElem?_getD, List.getD_eq_getElem?_getD, List.getElem?_drop]

theorem readU32be_drop (l : Bytes) (n : Nat) :
    readU32be l n = readU32be (l.drop n) 0 := by
  unfold readU32be
  simp only [getD_drop]
  norm_num

theorem length_recordBytes (iv ct : Bytes) :
    (recordBytes iv ct).length = 4 + iv.length + ct.length := by
  simp [recordBytes, u32be]
  omega

/-- The decrypt loop, run over a payload suffix that is exactly a list of
records, consumes each record in turn: it reads the length prefix, takes
the IV and ciphertext slices, decrypts and decompresses them, and advances
by exactly 4 + IV_BYTES + length, ending exactly at the end of the buffer.
`f` gives each record's plaintext and `g` its decompressed form. -/
theorem decryptBlobLoop_records {Key : Type} (env : VaultEnv Key) (key : Key)
    (aad : Bytes) (cc : Bool) (f g : Bytes × Bytes → Bytes)
    (recs : List (Bytes × Bytes)) :
    ∀ (payload : Bytes) (offset k : Nat),
    payload.drop offset = concatU8 (recs.map (fun r => recordBytes r.1 r.2)) →
    (∀ r ∈ recs, r.1.length = IV_BYTES) →
    (∀ r ∈ recs, r.2.length < 4294967296) →
    (∀ r ∈ recs, env.aeadDecrypt key r.1 r.2 aad = some (f r)) →
    (∀ r ∈ recs, maybeDecompress env.binding (f r) cc = .ok (g r)) →
    decryptBlobLoop env key aad cc payload (fun _ => false) offset k =
      .ok (recs.map g) := by
  induction recs with
  | nil =>
    intro payload offset k hdrop _ _ _ _
    have hle : payload.length ≤ offset := by
      rw [← List.drop_eq_nil_iff]
      simpa [concatU8] using hdrop
    unfold decryptBlobLoop
    rw [dif_neg (by omega)]
    simp
  | cons r rest ih =>
    obtain ⟨iv, ct⟩ := r
    intro payload offset k hdrop hiv hct hdec hdc
    have hivlen : iv.length = IV_BYTES := hiv (iv, ct) (by simp)
    have hctlen : ct.length < 4294967296 := hct (iv, ct) (by simp)
    have hdrop' : payload.drop offset =
        u32be ct.length ++ (iv ++ (ct ++
          concatU8 (rest.map fun r => recordBytes r.1 r.2))) := by
      rw [hdrop]
      simp only [List.map_cons, concatU8, List.flatten_cons, recordBytes,
        List.append_assoc]
    have hlt : offset < payload.length := by
      by_contra hno
      have hdn : payload.drop offset = [] := List.drop_eq_nil_of_le (by omega)
      rw [hdn] at hdrop'
      exact absurd hdrop'.symm (by simp [u32be])
    have hlen2 : payload.length - offset = 4 + (iv.length + (ct.length +
        (concatU8 (rest.map fun r => recordBytes r.1 r.2)).length)) := by
      have hcg := congrArg List.length hdrop'
      rw [List.length_drop] at hcg
      simp [u32be] at hcg
      omega
    have hread : readU32be payload offset = ct.length := by
      rw [readU32be_drop, hdrop', readU32be_u32be_append, Nat.mod_eq_of_lt hctlen]
    have hivslice : (payload.drop (offset + 4)).take IV_BYTES = iv := by
      have h1 : payload.drop (offset + 4) = (payload.drop offset).drop 4 := by
        rw [List.drop_drop, Nat.add_comm]
      rw [h1, hdrop', List.drop_left' (by simp [u32be] : (u32be ct.length).length = 4)]
      exact List.take_left' hivlen
    have hctslice : (payload.drop (offset + 4 + IV_BYTES)).take ct.length = ct := by
      have h1 : payload.drop (offset + 4 + IV_BYTES) =
          (payload.drop offset).drop (4 + IV_BYTES) := by
        rw [List.drop_drop]
        congr 1
      rw [h1, hdrop']
      rw [show u32be ct.length ++ (iv ++ (ct ++
          concatU8 (rest.map fun r => recordBytes r.1 r.2))) =
        (u32be ct.length ++ iv) ++ (ct ++
          concatU8 (rest.map fun r => recordBytes r.1 r.2)) from by
        simp [List.append_assoc]]
      rw [List.drop_left' (show (u32be ct.length ++ iv).length = 4 + IV_BYTES from by
        simp [u32be, hivlen]
        omega)]
      exact List.take_left ct _
    have hnext : payload.drop (offset + 4 + IV_BYTES + ct.length) =
        concatU8 (rest.map fun r => recordBytes r.1 r.2) := by
      rw [show offset + 4 + IV_BYTES + ct.length =
        offset + (4 + IV_BYTES + ct.length) from by omega]
      rw [← List.drop_drop, hdrop']
      rw [show u32be ct.length ++ (iv ++ (ct ++
          concatU8 (rest.map fun r => recordBytes r.1 r.2))) =
        (u32be ct.length ++ (iv ++ ct)) ++
          concatU8 (rest.map fun r => recordBytes r.1 r.2) from by
        simp [List.append_assoc]]
      exact List.drop_left' (show (u32be ct.length ++ (iv ++ ct)).length =
          4 + IV_BYTES + ct.length from by
        simp [u32be, hivlen]
        omega)
    have hdec1 : env.aeadDecrypt key iv ct aad = some (f (iv, ct)) :=
      hdec (iv, ct) (by simp)
    have hdc1 : maybeDecompress env.binding (f (iv, ct)) cc = .ok (g (iv, ct)) :=
      hdc (iv, ct) (by simp)
    unfold decryptBlobLoop
    rw [dif_pos hlt]
    simp only [hread, Bool.false_eq_true, if_false]
    rw [if_neg (by omega : ¬payload.length < offset + 4)]
    rw [if_neg (by omega : ¬payload.length < offset + 4 + IV_BYTES + ct.length)]
    rw [hivslice, hctslice, hdec1]
    dsimp only
    rw [hdc1]
    dsimp only
    rw [ih payload (offset + 4 + IV_BYTES + ct.length) (k + 1) hnext
      (fun r hr => hiv r (List.mem_cons_of_mem _ hr))
      (fun r hr => hct r (List.mem_cons_of_mem _ hr))
      (fun r hr => hdec r (List.mem_cons_of_mem _ hr))
      (fun r hr => hdc r (List.mem_cons_of_mem _ hr))]
    rfl

/-- The window of the blob taken by the i-th chunk iteration. -/
def chunkWindow (data : Bytes) (chunkSize : Nat) (i : Nat) : Bytes :=
  (data.drop (i * chunkSize)).take
    (min (i * chunkSize + chunkSize) data.length - i * chunkSize)

/-- The record the i-th chunk iteration appends to the payload. -/
def chunkRecord {Key : Type} (env : VaultEnv Key) (key : Key) (ivs : Nat → Bytes)
    (data : Bytes) (chunkSize : Nat) (useCompression : Bool) (aad : Bytes)
    (i : Nat) : Bytes :=
  let u8 := chunkWindow data chunkSize i
  let chunk := if useCompression then maybeCompress env.binding u8 true
    else (false, u8)
  let ct := env.aeadEncrypt key (ivs i) chunk.2 aad
  recordBytes (ivs i) ct

/-- Without cancellation, the encrypt loop succeeds and produces one record
per chunk index. -/
theorem encryptBlobLoop_eq {Key : Type} (env : VaultEnv Key) (key : Key)
    (ivs : Nat → Bytes) (data : Bytes) (chunkSize : Nat) (useCompression : Bool)
    (aad : Bytes) :
    ∀ (n i : Nat), encryptBlobLoop env key ivs data chunkSize useCompression aad
        (fun _ => false) i n =
      .ok ((List.range' i (n - i)).map
        (chunkRecord env key ivs data chunkSize useCompression aad)) := by
  intro n i
  generalize hk : n - i = k
  induction k generalizing i with
  | zero =>
    unfold encryptBlobLoop
    rw [if_neg (by omega)]
    simp
  | succ k ihk =>
    unfold encryptBlobLoop
    rw [if_pos (by omega)]
    simp only [Bool.false_eq_true, if_false]
    rw [ihk (i + 1) (by omega)]
    rw [List.range'_succ]
    simp [chunkRecord, chunkWindow, recordBytes]

/-- A small blob sample (empty type tag, as a File-less Blob has). -/
def sampleBlob : Blob := { data := [1, 2, 3], type := "" }

/-- A blob one byte over the 64 MiB single-shot threshold. -/
def bigBlob : Blob := { data := List.replicate 67108865 0, type := "" }

theorem bigBlob_size : bigBlob.data.length = 67108865 := by
  show (List.replicate 67108865 (0 : Byte)).length = 67108865
  rw [List.length_replicate]

/-- C6: compression absence is asymmetric.  With no backend (no resolved
binding, no CompressionStream global), maybeCompress passes bytes through
with a false flag and never errors; encryptString and both encryptBlob
branches succeed and record compressed = false in the container (flags bit
and metadata field); maybeDecompress on a compressed-claiming container,
by contrast, fails with the compression-unavailable error. -/
theorem c6_compression_asymmetry {Key : Type} (env : VaultEnv Key) (key : Key)
    (ivs : Nat → Bytes) (s : String) (blob : Blob) (chunkSize : Nat)
    (hb : env.binding = none) (hcs : env.hasCompressionStream = false) :
    (∀ u8 : Bytes, ∀ enabled : Bool, maybeCompress none u8 enabled = (false, u8)) ∧
    (encryptString env key (ivs 0) s true =
      packContainer env.metaCodec false false (textMeta (ivs 0) false)
        (env.aeadEncrypt key (ivs 0) (env.textEncode s)
          (env.textEncode (ALG ++ "|text|v" ++ toString VERSION)))) ∧
    (blob.data.length ≤ CHUNK_COMPRESS_THRESHOLD →
      encryptBlob env key ivs blob true chunkSize (fun _ => false) =
        .ok (packContainer env.metaCodec false false
          (blobSingleMeta (if blob.type = "" then defaultMime else blob.type) false
            (ivs 0) blob.data.length)
          (env.aeadEncrypt key (ivs 0) blob.data
            (env.textEncode (ALG ++ "|blob|v" ++ toString VERSION ++ "|" ++
              (if blob.type = "" then defaultMime else blob.type)))))) ∧
    (blob.data.length > CHUNK_COMPRESS_THRESHOLD →
      encryptBlob env key ivs blob true chunkSize (fun _ => false) =
        .ok (packContainer env.metaCodec false true
          (blobChunkedMeta (if blob.type = "" then defaultMime else blob.type) false
            chunkSize blob.data.length)
          (concatU8 ((List.range'
              0 ((blob.data.length + chunkSize - 1) / chunkSize)).map
            (chunkRecord env key ivs blob.data chunkSize false
              (env.textEncode (ALG ++ "|blob|v" ++ toString VERSION ++ "|" ++
                (if blob.type = "" then defaultMime else blob.type)))))))) ∧
    (∀ u8 : Bytes, maybeDecompress none u8 true = .error .compressionUnavailable) := by
  refine ⟨?_, ?_, ?_, ?_, ?_⟩
  · intro u8 enabled
    unfold maybeCompress
    cases enabled <;> simp
  · unfold encryptString
    rw [hb]
    simp [maybeCompress]
  · intro hsize
    unfold encryptBlob
    rw [hb]
    have hd : decide (blob.data.length > CHUNK_COMPRESS_THRESHOLD) = false := by
      simp
      omega
    simp only [hd, Bool.not_false, if_true, Bool.false_eq_true, if_false,
      maybeCompress]
    simp
  · intro hsize
    unfold encryptBlob
    have hd : decide (blob.data.length > CHUNK_COMPRESS_THRESHOLD) = true := by
      simp
      omega
    simp only [hd, Bool.not_true, Bool.false_eq_true, if_false, hcs,
      Bool.and_false, encryptBlobLoop_eq]
    simp
  · intro u8
    unfold maybeDecompress
    simp

/-- Witness for C6 at the pass-through environment with a small and a large
blob. -/
theorem c6_compression_asymmetry_witness :
    idEnv.binding = none ∧ idEnv.hasCompressionStream = false ∧
    sampleBlob.data.length ≤ CHUNK_COMPRESS_THRESHOLD ∧
    bigBlob.data.length > CHUNK_COMPRESS_THRESHOLD ∧
    (encryptBlob idEnv () (fun _ => iv12) sampleBlob true DEFAULT_CHUNK_SIZE
        (fun _ => false) =
      .ok (packContainer idEnv.metaCodec false false
        (blobSingleMeta (if sampleBlob.type = "" then defaultMime else sampleBlob.type)
          false (iv12) sampleBlob.data.length)
        (idEnv.aeadEncrypt () (iv12) sampleBlob.data
          (idEnv.textEncode (ALG ++ "|blob|v" ++ toString VERSION ++ "|" ++
            (if sampleBlob.type = "" then defaultMime else sampleBlob.type)))))) ∧
    (encryptBlob idEnv () (fun _ => iv12) bigBlob true DEFAULT_CHUNK_SIZE
        (fun _ => false) =
      .ok (packContainer idEnv.metaCodec false true
        (blobChunkedMeta (if bigBlob.type = "" then defaultMime else bigBlob.type)
          false DEFAULT_CHUNK_SIZE bigBlob.data.length)
        (concatU8 ((List.range'
            0 ((bigBlob.data.length + DEFAULT_CHUNK_SIZE - 1) / DEFAULT_CHUNK_SIZE)).map
          (chunkRecord idEnv () (fun _ => iv12) bigBlob.data DEFAULT_CHUNK_SIZE false
            (idEnv.textEncode (ALG ++ "|blob|v" ++ toString VERSION ++ "|" ++
              (if bigBlob.type = "" then defaultMime else bigBlob.type)))))))) :=
  ⟨rfl, rfl, by decide, by rw [bigBlob_size]; norm_num [CHUNK_COMPRESS_THRESHOLD],
    (c6_compression_asymmetry idEnv () (fun _ => iv12) sampleText sampleBlob
      DEFAULT_CHUNK_SIZE rfl rfl).2.2.1 (by decide),
    (c6_compression_asymmetry idEnv () (fun _ => iv12) sampleText bigBlob
      DEFAULT_CHUNK_SIZE rfl rfl).2.2.2.1
      (by rw [bigBlob_size]; norm_num [CHUNK_COMPRESS_THRESHOLD])⟩

/-- The chunk-count formula of encryptBlob is the ceiling of size over
chunkSize. -/
theorem ceil_div_char (n c : Nat) (hc : 0 < c) :
    (n + c - 1) / c = n / c + (if n % c = 0 then 0 else 1) := by
  rw [show n + c - 1 = n + (c - 1) from by omega, Nat.add_div hc]
  rw [Nat.mod_eq_of_lt (show c - 1 < c from by omega)]
  rw [Nat.div_eq_of_lt (show c - 1 < c from by omega)]
  have h4 : n % c < c := Nat.mod_lt _ hc
  by_cases hr : n % c = 0
  · rw [if_pos hr, if_neg (by omega)]
  · rw [if_neg hr, if_pos (by omega)]

/-- C3: the threshold decision and payload layout of encryptBlob.  At or
below 64 MiB the result is a single-shot container: chunked flag clear,
metadata marked single = true and carrying the IV, payload one AEAD
ciphertext of the (optionally compressed) whole input.  Above 64 MiB the
result is a chunked container whose payload is the concatenation of exactly
ceil(size / chunkSize) records, each the length-prefixed IV-and-ciphertext
encoding of one window of chunkSize bytes (the last window possibly
shorter). -/
theorem c3_threshold_and_layout {Key : Type} (env : VaultEnv Key) (key : Key)
    (ivs : Nat → Bytes) (blob : Blob) (compress : Bool) (chunkSize : Nat) :
    (blob.data.length ≤ CHUNK_COMPRESS_THRESHOLD →
      encryptBlob env key ivs blob compress chunkSize (fun _ => false) =
        .ok (packContainer env.metaCodec
          (maybeCompress env.binding blob.data compress).1 false
          (blobSingleMeta (if blob.type = "" then defaultMime else blob.type)
            (maybeCompress env.binding blob.data compress).1 (ivs 0)
            blob.data.length)
          (env.aeadEncrypt key (ivs 0)
            (maybeCompress env.binding blob.data compress).2
            (env.textEncode (ALG ++ "|blob|v" ++ toString VERSION ++ "|" ++
              (if blob.type = "" then defaultMime else blob.type)))))) ∧
    (blob.data.length > CHUNK_COMPRESS_THRESHOLD →
      encryptBlob env key ivs blob compress chunkSize (fun _ => false) =
        .ok (packContainer env.metaCodec
          (compress && env.hasCompressionStream) true
          (blobChunkedMeta (if blob.type = "" then defaultMime else blob.type)
            (compress && env.hasCompressionStream) chunkSize blob.data.length)
          (concatU8 ((List.range'
              0 ((blob.data.length + chunkSize - 1) / chunkSize)).map
            (chunkRecord env key ivs blob.data chunkSize
              (compress && env.hasCompressionStream)
              (env.textEncode (ALG ++ "|blob|v" ++ toString VERSION ++ "|" ++
                (if blob.type = "" then defaultMime else blob.type)))))))) ∧
    (0 < chunkSize →
      (blob.data.length + chunkSize - 1) / chunkSize =
        blob.data.length / chunkSize +
          (if blob.data.length % chunkSize = 0 then 0 else 1)) := by
  refine ⟨?_, ?_, fun hc => ceil_div_char _ _ hc⟩
  · intro hsize
    unfold encryptBlob
    have hd : decide (blob.data.length > CHUNK_COMPRESS_THRESHOLD) = false := by
      simp
      omega
    simp only [hd, Bool.not_false, if_true, Bool.false_eq_true, if_false]
  · intro hsize
    unfold encryptBlob
    have hd : decide (blob.data.length > CHUNK_COMPRESS_THRESHOLD) = true := by
      simp
      omega
    simp only [hd, Bool.not_true, Bool.false_eq_true, if_false, encryptBlobLoop_eq]
    simp

/-- The zero-filled 70 MiB blob of the concrete scenario. -/
def blob70 : Blob := { data := List.replicate 73400320 0, type := "" }

theorem blob70_size : blob70.data.length = 73400320 := by
  show (List.replicate 73400320 (0 : Byte)).length = 73400320
  rw [List.length_replicate]

/-- Witness for C3: the chunked conclusion at a zero-filled 70 MiB blob
with 16 MiB chunks and compression off gives exactly 5 records (and the
single-shot conclusion at a small blob). -/
theorem c3_threshold_and_layout_witness :
    sampleBlob.data.length ≤ CHUNK_COMPRESS_THRESHOLD ∧
    blob70.data.length > CHUNK_COMPRESS_THRESHOLD ∧
    (blob70.data.length + 16777216 - 1) / 16777216 = 5 ∧
    ((List.range' 0 ((blob70.data.length + 16777216 - 1) / 16777216)).map
      (chunkRecord idEnv () (fun _ => iv12) blob70.data 16777216 false
        (idEnv.textEncode (ALG ++ "|blob|v" ++ toString VERSION ++ "|" ++
          (if blob70.type = "" then defaultMime else blob70.type))))).length = 5 ∧
    (encryptBlob idEnv () (fun _ => iv12) sampleBlob true DEFAULT_CHUNK_SIZE
        (fun _ => false) =
      .ok (packContainer idEnv.metaCodec
        (maybeCompress idEnv.binding sampleBlob.data true).1 false
        (blobSingleMeta (if sampleBlob.type = "" then defaultMime else sampleBlob.type)
          (maybeCompress idEnv.binding sampleBlob.data true).1 (iv12)
          sampleBlob.data.length)
        (idEnv.aeadEncrypt () (iv12)
          (maybeCompress idEnv.binding sampleBlob.data true).2
          (idEnv.textEncode (ALG ++ "|blob|v" ++ toString VERSION ++ "|" ++
            (if sampleBlob.type = "" then defaultMime else sampleBlob.type)))))) ∧
    (encryptBlob idEnv () (fun _ => iv12) blob70 false 16777216 (fun _ => false) =
      .ok (packContainer idEnv.metaCodec
        (false && idEnv.hasCompressionStream) true
        (blobChunkedMeta (if blob70.type = "" then defaultMime else blob70.type)
          (false && idEnv.hasCompressionStream) 16777216 blob70.data.length)
        (concatU8 ((List.range'
            0 ((blob70.data.length + 16777216 - 1) / 16777216)).map
          (chunkRecord idEnv () (fun _ => iv12) blob70.data 16777216
            (false && idEnv.hasCompressionStream)
            (idEnv.textEncode (ALG ++ "|blob|v" ++ toString VERSION ++ "|" ++
              (if blob70.type = "" then defaultMime else blob70.type)))))))) :=
  ⟨by decide,
    by rw [blob70_size]; norm_num [CHUNK_COMPRESS_THRESHOLD],
    by rw [blob70_size],
    by rw [List.length_map, List.length_range', blob70_size],
    (c3_threshold_and_layout idEnv () (fun _ => iv12) sampleBlob true
      DEFAULT_CHUNK_SIZE).1 (by decide),
    (c3_threshold_and_layout idEnv () (fun _ => iv12) blob70 false 16777216).2.1
      (by rw [blob70_size]; norm_num [CHUNK_COMPRESS_THRESHOLD])⟩

/-- Evaluation of decryptToBlob after a successful unpack of a blob
container: the branch taken depends only on the chunked flag and the
metadata single field. -/
theorem decryptToBlob_dispatch {Key : Type} (env : VaultEnv Key) (key : Key)
    (packed : List Char) (signal : Nat → Bool) (pc : PackedContainer)
    (hunp : unpackContainer env.metaCodec packed = .ok pc)
    (hty : pc.meta.type = ContentType.blob) :
    decryptToBlob env key packed signal =
      if !pc.isChunked && pc.meta.single.getD false then
        decryptBlobSingle env key pc.meta pc.payloadU8 (metaMime pc.meta)
          (env.textEncode (ALG ++ "|blob|v" ++ toString VERSION ++ "|" ++
            metaMime pc.meta)) signal
      else
        match decryptBlobLoop env key
            (env.textEncode (ALG ++ "|blob|v" ++ toString VERSION ++ "|" ++
              metaMime pc.meta)) pc.compressed pc.payloadU8 signal 0 0 with
        | .error e => .error e
        | .ok parts => .ok ⟨concatU8 parts, metaMime pc.meta⟩ := by
  unfold decryptToBlob
  rw [hunp]
  dsimp only
  rw [if_neg (by simp [hty])]

/-- A successful run of the record loop certifies the framing invariant of
the payload suffix it consumed: it was made exactly of whole records. -/
theorem decryptBlobLoop_ok_wellFramed {Key : Type} (env : VaultEnv Key) (key : Key)
    (aad : Bytes) (cc : Bool) (payload : Bytes) (signal : Nat → Bool) :
    ∀ (fuel offset k : Nat) (parts : List Bytes),
    payload.length - offset ≤ fuel →
    decryptBlobLoop env key aad cc payload signal offset k = .ok parts →
    wellFramed (payload.drop offset) = true := by
  intro fuel
  induction fuel with
  | zero =>
    intro offset k parts hf hok
    rw [List.drop_eq_nil_of_le (by omega)]
    unfold wellFramed
    simp
  | succ fuel ihf =>
    intro offset k parts hf hok
    by_cases h : offset < payload.length
    case neg =>
      rw [List.drop_eq_nil_of_le (by omega)]
      unfold wellFramed
      simp
    case pos =>
      unfold decryptBlobLoop at hok
      rw [dif_pos h] at hok
      by_cases hs : signal k = true
      · rw [if_pos hs] at hok
        exact absurd hok (by simp)
      rw [if_neg hs] at hok
      by_cases h4 : payload.length < offset + 4
      · rw [if_pos h4] at hok
        exact absurd hok (by simp)
      rw [if_neg h4] at hok
      dsimp only at hok
      by_cases hD : payload.length < offset + 4 + IV_BYTES + readU32be payload offset
      · rw [if_pos hD] at hok
        exact absurd hok (by simp)
      rw [if_neg hD] at hok
      rcases hdec : env.aeadDecrypt key
          ((payload.drop (offset + 4)).take IV_BYTES)
          ((payload.drop (offset + 4 + IV_BYTES)).take (readU32be payload offset))
          aad with _ | pt
      · rw [hdec] at hok
        exact absurd hok (by simp)
      rw [hdec] at hok
      dsimp only at hok
      rcases hdc : maybeDecompress env.binding pt cc with e | u8
      · rw [hdc] at hok
        exact absurd hok (by simp)
      rw [hdc] at hok
      dsimp only at hok
      rcases hrec : decryptBlobLoop env key aad cc payload signal
          (offset + 4 + IV_BYTES + readU32be payload offset) (k + 1) with e | rest
      · rw [hrec] at hok
        exact absurd hok (by simp)
      have hwf := ihf (offset + 4 + IV_BYTES + readU32be payload offset) (k + 1)
        rest (by simp [IV_BYTES] at hD ⊢; omega) hrec
      unfold wellFramed
      rw [if_neg (by rw [List.length_drop]; omega)]
      rw [if_neg (by rw [List.length_drop]; omega)]
      simp only [← readU32be_drop]
      rw [dif_neg (by rw [List.length_drop]; omega)]
      rw [List.drop_drop, show offset + (4 + IV_BYTES + readU32be payload offset) =
        offset + 4 + IV_BYTES + readU32be payload offset from by omega]
      exact hwf

/-- C2: the chunked decrypt loop starts at offset 0 and advances by exactly
4 + 12 + length per record.  Conjunct one: whenever decryptToBlob takes the
loop and succeeds, the payload satisfied the framing invariant — it was
consumed exactly to its end, so a success never comes from a truncated or
leftover buffer.  Conjunct two: a chunked container whose payload is too
short for even one complete length-prefixed record fails with the
corrupted-chunk-container error (len when not even the length field fits,
data otherwise). -/
theorem c2_chunk_framing {Key : Type} (env : VaultEnv Key) (key : Key) :
    (∀ (packed : List Char) (signal : Nat → Bool) (pc : PackedContainer)
      (b : Blob),
      unpackContainer env.metaCodec packed = .ok pc →
      pc.meta.type = ContentType.blob →
      (!pc.isChunked && pc.meta.single.getD false) = false →
      decryptToBlob env key packed signal = .ok b →
      wellFramed pc.payloadU8 = true) ∧
    (∀ (meta : BaseMeta) (p : Bytes) (cc : Bool),
      env.metaCodec.parse (env.metaCodec.stringify meta) = some meta →
      (env.metaCodec.stringify meta).length < 4294967296 →
      meta.type = ContentType.blob →
      0 < p.length →
      p.length < 4 + IV_BYTES + readU32be p 0 →
      decryptToBlob env key (packContainer env.metaCodec cc true meta p)
          (fun _ => false) =
        .error (if p.length < 4 then VaultError.corruptedChunkLen
          else VaultError.corruptedChunkData)) := by
  constructor
  · intro packed signal pc b hunp hty hbr hok
    rw [decryptToBlob_dispatch env key packed signal pc hunp hty, hbr] at hok
    simp only [Bool.false_eq_true, if_false] at hok
    rcases hloop : decryptBlobLoop env key
        (env.textEncode (ALG ++ "|blob|v" ++ toString VERSION ++ "|" ++
          metaMime pc.meta)) pc.compressed pc.payloadU8 signal 0 0 with e | parts
    · rw [hloop] at hok
      exact absurd hok (by simp)
    · have := decryptBlobLoop_ok_wellFramed env key _ pc.compressed pc.payloadU8
        signal pc.payloadU8.length 0 0 parts (by omega) hloop
      rwa [List.drop_zero] at this
  · intro meta p cc hparse hlen hty hpos hshort
    have hunp := unpack_pack env.metaCodec cc true meta p hparse hlen
    rw [decryptToBlob_dispatch env key _ (fun _ => false)
      ⟨cc, true, meta, p⟩ hunp hty]
    dsimp only
    simp only [Bool.not_true, Bool.false_and, Bool.false_eq_true, if_false]
    unfold decryptBlobLoop
    rw [dif_pos (by omega : (0 : Nat) < p.length)]
    simp only [Bool.false_eq_true, if_false]
    by_cases hp4 : p.length < 4
    · rw [if_pos (by omega : p.length < 0 + 4)]
      rw [if_pos hp4]
    · rw [if_neg (by omega : ¬p.length < 0 + 4)]
      rw [if_pos (show p.length < 0 + 4 + IV_BYTES + readU32be p 0 from by
        simp only [IV_BYTES] at hshort ⊢
        omega)]
      rw [if_neg hp4]

/-- A minimal blob metadata record. -/
def metaB : BaseMeta := { type := ContentType.blob, alg := ALG }

/-- Witness for C2: a one-record container certifies the framing invariant
through conjunct one, and a 3-byte chunked payload fails with the
corrupted-chunk error through conjunct two. -/
theorem c2_chunk_framing_witness :
    wellFramed (recordBytes iv12 [5]) = true ∧
    decryptToBlob idEnv ()
        (packContainer testMetaCodec false true metaB [0, 0, 1])
        (fun _ => false) =
      .error (if ([0, 0, 1] : Bytes).length < 4 then VaultError.corruptedChunkLen
        else VaultError.corruptedChunkData) := by
  constructor
  · have hunp := unpack_pack testMetaCodec false true metaB (recordBytes iv12 [5])
      (by decide) (by decide)
    have hloop := decryptBlobLoop_records idEnv ()
      (idEnv.textEncode (ALG ++ "|blob|v" ++ toString VERSION ++ "|" ++
        metaMime metaB))
      false Prod.snd Prod.snd [(iv12, [5])] (recordBytes iv12 [5]) 0 0
      (by decide) (by decide) (by decide) (fun r hr => rfl) (fun r hr => rfl)
    have hdecrypt : decryptToBlob idEnv ()
        (packContainer testMetaCodec false true metaB (recordBytes iv12 [5]))
        (fun _ => false) =
        .ok ⟨concatU8 ([(iv12, [5])].map Prod.snd), metaMime metaB⟩ := by
      rw [decryptToBlob_dispatch idEnv () _ (fun _ => false)
        ⟨false, true, metaB, recordBytes iv12 [5]⟩ hunp (by decide)]
      simp only [Bool.not_true, Bool.false_and, Bool.false_eq_true, if_false]
      rw [hloop]
    exact (c2_chunk_framing idEnv ()).1 _ (fun _ => false)
      ⟨false, true, metaB, recordBytes iv12 [5]⟩ _ hunp (by decide) (by decide)
      hdecrypt
  · exact (c2_chunk_framing idEnv ()).2 metaB [0, 0, 1] false (by decide)
      (by decide) (by decide) (by decide) (by decide)

/-- An abort observed at any pending check index makes the encrypt loop
fail with the abort error. -/
theorem encryptBlobLoop_abort {Key : Type} (env : VaultEnv Key) (key : Key)
    (ivs : Nat → Bytes) (data : Bytes) (chunkSize : Nat) (useCompression : Bool)
    (aad : Bytes) (signal : Nat → Bool) (j : Nat) (hsig : signal j = true) :
    ∀ (n i : Nat), i ≤ j → j < n →
    encryptBlobLoop env key ivs data chunkSize useCompression aad signal i n =
      .error .aborted := by
  intro n i
  generalize hk : n - i = k
  induction k generalizing i with
  | zero =>
    intro hij hjn
    omega
  | succ k ihk =>
    intro hij hjn
    unfold encryptBlobLoop
    rw [if_pos (by omega)]
    by_cases hs : signal i = true
    · rw [if_pos hs]
    · rw [if_neg hs]
      have hne : i ≠ j := fun he => hs (he ▸ hsig)
      rw [ihk (i + 1) (by omega) (by omega) hjn]

/-- The decrypt loop over a record-framed payload suffix aborts whenever
the signal is set at any of its pending check indices: the loop reaches
every record of the suffix, checking the signal before each, so the least
set index is observed and the whole run fails with the abort error. -/
theorem decryptBlobLoop_records_abort {Key : Type} (env : VaultEnv Key) (key : Key)
    (aad : Bytes) (cc : Bool) (f g : Bytes × Bytes → Bytes) (signal : Nat → Bool)
    (recs : List (Bytes × Bytes)) :
    ∀ (payload : Bytes) (offset k : Nat),
    payload.drop offset = concatU8 (recs.map (fun r => recordBytes r.1 r.2)) →
    (∀ r ∈ recs, r.1.length = IV_BYTES) →
    (∀ r ∈ recs, r.2.length < 4294967296) →
    (∀ r ∈ recs, env.aeadDecrypt key r.1 r.2 aad = some (f r)) →
    (∀ r ∈ recs, maybeDecompress env.binding (f r) cc = .ok (g r)) →
    (∃ j, j < recs.length ∧ signal (k + j) = true) →
    decryptBlobLoop env key aad cc payload signal offset k = .error .aborted := by
  induction recs with
  | nil =>
    intro payload offset k _ _ _ _ _ hex
    rcases hex with ⟨j, hj, _⟩
    exact absurd hj (by simp)
  | cons r rest ih =>
    obtain ⟨iv, ct⟩ := r
    intro payload offset k hdrop hiv hct hdec hdc hex
    have hivlen : iv.length = IV_BYTES := hiv (iv, ct) (by simp)
    have hctlen : ct.length < 4294967296 := hct (iv, ct) (by simp)
    have hdrop' : payload.drop offset =
        u32be ct.length ++ (iv ++ (ct ++
          concatU8 (rest.map fun r => recordBytes r.1 r.2))) := by
      rw [hdrop]
      simp only [List.map_cons, concatU8, List.flatten_cons, recordBytes,
        List.append_assoc]
    have hlt : offset < payload.length := by
      by_contra hno
      have hdn : payload.drop offset = [] := List.drop_eq_nil_of_le (by omega)
      rw [hdn] at hdrop'
      exact absurd hdrop'.symm (by simp [u32be])
    have hlen2 : payload.length - offset = 4 + (iv.length + (ct.length +
        (concatU8 (rest.map fun r => recordBytes r.1 r.2)).length)) := by
      have hcg := congrArg List.length hdrop'
      rw [List.length_drop] at hcg
      simp [u32be] at hcg
      omega
    have hread : readU32be payload offset = ct.length := by
      rw [readU32be_drop, hdrop', readU32be_u32be_append, Nat.mod_eq_of_lt hctlen]
    have hivslice : (payload.drop (offset + 4)).take IV_BYTES = iv := by
      have h1 : payload.drop (offset + 4) = (payload.drop offset).drop 4 := by
        rw [List.drop_drop, Nat.add_comm]
      rw [h1, hdrop', List.drop_left' (by simp [u32be] : (u32be ct.length).length = 4)]
      exact List.take_left' hivlen
    have hctslice : (payload.drop (offset + 4 + IV_BYTES)).take ct.length = ct := by
      have h1 : payload.drop (offset + 4 + IV_BYTES) =
          (payload.drop offset).drop (4 + IV_BYTES) := by
        rw [List.drop_drop]
        congr 1
      rw [h1, hdrop']
      rw [show u32be ct.length ++ (iv ++ (ct ++
          concatU8 (rest.map fun r => recordBytes r.1 r.2))) =
        (u32be ct.length ++ iv) ++ (ct ++
          concatU8 (rest.map fun r => recordBytes r.1 r.2)) from by
        simp [List.append_assoc]]
      rw [List.drop_left' (show (u32be ct.length ++ iv).length = 4 + IV_BYTES from by
        simp [u32be, hivlen]
        omega)]
      exact List.take_left ct _
    have hnext : payload.drop (offset + 4 + IV_BYTES + ct.length) =
        concatU8 (rest.map fun r => recordBytes r.1 r.2) := by
      rw [show offset + 4 + IV_BYTES + ct.length =
        offset + (4 + IV_BYTES + ct.length) from by omega]
      rw [← List.drop_drop, hdrop']
      rw [show u32be ct.length ++ (iv ++ (ct ++
          concatU8 (rest.map fun r => recordBytes r.1 r.2))) =
        (u32be ct.length ++ (iv ++ ct)) ++
          concatU8 (rest.map fun r => recordBytes r.1 r.2) from by
        simp [List.append_assoc]]
      exact List.drop_left' (show (u32be ct.length ++ (iv ++ ct)).length =
          4 + IV_BYTES + ct.length from by
        simp [u32be, hivlen]
        omega)
    have hdec1 : env.aeadDecrypt key iv ct aad = some (f (iv, ct)) :=
      hdec (iv, ct) (by simp)
    have hdc1 : maybeDecompress env.binding (f (iv, ct)) cc = .ok (g (iv, ct)) :=
      hdc (iv, ct) (by simp)
    unfold decryptBlobLoop
    rw [dif_pos hlt]
    by_cases hs : signal k = true
    · rw [if_pos hs]
    · rw [if_neg hs]
      have hex2 : ∃ j2, j2 < rest.length ∧ signal (k + 1 + j2) = true := by
        rcases hex with ⟨j, hj, hsj⟩
        rcases j with _ | j2
        · exact absurd hsj hs
        · refine ⟨j2, ?_, ?_⟩
          · simp only [List.length_cons] at hj
            omega
          · rw [show k + 1 + j2 = k + (j2 + 1) from by omega]
            exact hsj
      simp only [hread]
      rw [if_neg (by omega : ¬payload.length < offset + 4)]
      rw [if_neg (by omega : ¬payload.length < offset + 4 + IV_BYTES + ct.length)]
      rw [hivslice, hctslice, hdec1]
      dsimp only
      rw [hdc1]
      dsimp only
      rw [ih payload (offset + 4 + IV_BYTES + ct.length) (k + 1) hnext
        (fun r hr => hiv r (List.mem_cons_of_mem _ hr))
        (fun r hr => hct r (List.mem_cons_of_mem _ hr))
        (fun r hr => hdec r (List.mem_cons_of_mem _ hr))
        (fun r hr => hdc r (List.mem_cons_of_mem _ hr))
        hex2]

/-- C8: cancellation.  The signal is checked before the single-shot unit
and before every chunk iteration, on both the encrypt and the decrypt side;
a signal observed set at such a check makes the whole operation fail with
the distinct abort error, so no container string and no decrypted blob is
ever returned.  For encryptBlob this holds in both branches when the signal
is set at the first check, and in the chunked branch when it is set at any
chunk index below the chunk count.  For decryptToBlob it holds in the
single-shot branch, in the chunked branch for the first check of a payload
with anything to process, and in the chunked branch for a signal first set
at any later check index the record loop reaches — that is, at any index
below the record count of a record-framed payload. -/
theorem c8_cancellation {Key : Type} (env : VaultEnv Key) (key : Key) :
    (∀ (ivs : Nat → Bytes) (blob : Blob) (compress : Bool) (chunkSize : Nat)
      (signal : Nat → Bool), 0 < chunkSize → signal 0 = true →
      encryptBlob env key ivs blob compress chunkSize signal = .error .aborted) ∧
    (∀ (ivs : Nat → Bytes) (blob : Blob) (compress : Bool) (chunkSize : Nat)
      (signal : Nat → Bool) (i : Nat),
      blob.data.length > CHUNK_COMPRESS_THRESHOLD →
      i < (blob.data.length + chunkSize - 1) / chunkSize →
      signal i = true →
      encryptBlob env key ivs blob compress chunkSize signal = .error .aborted) ∧
    (∀ (packed : List Char) (signal : Nat → Bool) (pc : PackedContainer),
      unpackContainer env.metaCodec packed = .ok pc →
      pc.meta.type = ContentType.blob →
      (!pc.isChunked && pc.meta.single.getD false) = true →
      signal 0 = true →
      decryptToBlob env key packed signal = .error .aborted) ∧
    (∀ (packed : List Char) (signal : Nat → Bool) (pc : PackedContainer),
      unpackContainer env.metaCodec packed = .ok pc →
      pc.meta.type = ContentType.blob →
      (!pc.isChunked && pc.meta.single.getD false) = false →
      pc.payloadU8 ≠ [] →
      signal 0 = true →
      decryptToBlob env key packed signal = .error .aborted) ∧
    (∀ (meta : BaseMeta) (recs : List (Bytes × Bytes)) (cc : Bool)
      (f g : Bytes × Bytes → Bytes) (signal : Nat → Bool) (j : Nat),
      env.metaCodec.parse (env.metaCodec.stringify meta) = some meta →
      (env.metaCodec.stringify meta).length < 4294967296 →
      meta.type = ContentType.blob →
      (∀ r ∈ recs, r.1.length = IV_BYTES) →
      (∀ r ∈ recs, r.2.length < 4294967296) →
      (∀ r ∈ recs, env.aeadDecrypt key r.1 r.2
        (env.textEncode (ALG ++ "|blob|v" ++ toString VERSION ++ "|" ++
          metaMime meta)) = some (f r)) →
      (∀ r ∈ recs, maybeDecompress env.binding (f r) cc = .ok (g r)) →
      j < recs.length →
      signal j = true →
      decryptToBlob env key
          (packContainer env.metaCodec cc true meta
            (concatU8 (recs.map (fun r => recordBytes r.1 r.2)))) signal =
        .error .aborted) := by
  refine ⟨?_, ?_, ?_, ?_, ?_⟩
  · intro ivs blob compress chunkSize signal hc hsig
    unfold encryptBlob
    by_cases hl : blob.data.length > CHUNK_COMPRESS_THRESHOLD
    · rw [if_neg (by simp [hl])]
      have hcount : 0 < (blob.data.length + chunkSize - 1) / chunkSize := by
        apply Nat.div_pos
        · omega
        · omega
      simp only [encryptBlobLoop_abort env key ivs blob.data chunkSize
        (compress && env.hasCompressionStream)
        (env.textEncode (ALG ++ "|blob|v" ++ toString VERSION ++ "|" ++
          if blob.type = "" then defaultMime else blob.type))
        signal 0 hsig ((blob.data.length + chunkSize - 1) / chunkSize) 0
        (by omega) hcount]
    · rw [if_pos (by simp; omega)]
      rw [if_pos hsig]
  · intro ivs blob compress chunkSize signal i hl hcount hsig
    unfold encryptBlob
    rw [if_neg (by simp [hl])]
    simp only [encryptBlobLoop_abort env key ivs blob.data chunkSize
      (compress && env.hasCompressionStream)
      (env.textEncode (ALG ++ "|blob|v" ++ toString VERSION ++ "|" ++
        if blob.type = "" then defaultMime else blob.type))
      signal i hsig ((blob.data.length + chunkSize - 1) / chunkSize) 0
      (by omega) hcount]
  · intro packed signal pc hunp hty hbr hsig
    rw [decryptToBlob_dispatch env key packed signal pc hunp hty, hbr]
    unfold decryptBlobSingle
    rw [if_pos rfl, if_pos hsig]
  · intro packed signal pc hunp hty hbr hne hsig
    rw [decryptToBlob_dispatch env key packed signal pc hunp hty, hbr]
    simp only [Bool.false_eq_true, if_false]
    unfold decryptBlobLoop
    rw [dif_pos (List.length_pos.mpr hne)]
    rw [if_pos hsig]
  · intro meta recs cc f g signal j hparse hlen hty hiv hct hdec hdc hj hsj
    have hunp := unpack_pack env.metaCodec cc true meta
      (concatU8 (recs.map (fun r => recordBytes r.1 r.2))) hparse hlen
    rw [decryptToBlob_dispatch env key _ signal _ hunp hty]
    simp only [Bool.not_true, Bool.false_and, Bool.false_eq_true, if_false]
    rw [decryptBlobLoop_records_abort env key _ cc f g signal recs _ 0 0
      (by rw [List.drop_zero]) hiv hct hdec hdc
      ⟨j, hj, by rw [Nat.zero_add]; exact hsj⟩]

/-- Blob metadata marked single with an IV, as the single-shot encrypt
writes it. -/
def metaBS : BaseMeta :=
  { type := ContentType.blob, alg := ALG, single := some true,
    iv := some (toBase64Url iv12), compressed := some false }

/-- Witness for C8: concrete aborts on both encrypt branches and both
decrypt branches — with the signal set from the start, and, for the
decrypt record loop, with a signal first set only at the second check, so
the abort lands after the first record was already processed. -/
theorem c8_cancellation_witness :
    (encryptBlob idEnv () (fun _ => iv12) sampleBlob true DEFAULT_CHUNK_SIZE
        (fun _ => true) = .error .aborted) ∧
    (encryptBlob idEnv () (fun _ => iv12) bigBlob true DEFAULT_CHUNK_SIZE
        (fun _ => true) = .error .aborted) ∧
    (decryptToBlob idEnv ()
        (packContainer testMetaCodec false false metaBS [1, 2, 3])
        (fun _ => true) = .error .aborted) ∧
    (decryptToBlob idEnv ()
        (packContainer testMetaCodec false true metaB (recordBytes iv12 [5]))
        (fun _ => true) = .error .aborted) ∧
    (decryptToBlob idEnv ()
        (packContainer testMetaCodec false true metaB
          (concatU8 (([(iv12, [5]), (iv12, [6])] : List (Bytes × Bytes)).map
            (fun r => recordBytes r.1 r.2))))
        (fun n => n == 1) = .error .aborted) := by
  refine ⟨?_, ?_, ?_, ?_, ?_⟩
  · exact (c8_cancellation idEnv ()).1 (fun _ => iv12) sampleBlob true
      DEFAULT_CHUNK_SIZE (fun _ => true) (by decide) rfl
  · exact (c8_cancellation idEnv ()).2.1 (fun _ => iv12) bigBlob true
      DEFAULT_CHUNK_SIZE (fun _ => true) 0
      (by rw [bigBlob_size]; norm_num [CHUNK_COMPRESS_THRESHOLD])
      (by rw [bigBlob_size]; norm_num [DEFAULT_CHUNK_SIZE]) rfl
  · exact (c8_cancellation idEnv ()).2.2.1 _ (fun _ => true)
      ⟨false, false, metaBS, [1, 2, 3]⟩
      (unpack_pack testMetaCodec false false metaBS [1, 2, 3] (by decide)
        (by decide))
      (by decide) (by decide) rfl
  · exact (c8_cancellation idEnv ()).2.2.2.1 _ (fun _ => true)
      ⟨false, true, metaB, recordBytes iv12 [5]⟩
      (unpack_pack testMetaCodec false true metaB (recordBytes iv12 [5])
        (by decide) (by decide))
      (by decide) (by decide) (by decide) rfl
  · exact (c8_cancellation idEnv ()).2.2.2.2 metaB
      [(iv12, [5]), (iv12, [6])] false Prod.snd Prod.snd (fun n => n == 1) 1
      (by decide) (by decide) (by decide) (by decide) (by decide)
      (fun r hr => rfl) (fun r hr => rfl) (by decide) rfl

/-- C9: chunk integrity is chunk-local, not document-global.  Take any
valid chunked container built from a list of records (at least two), and
delete trailing records, keeping a prefix of k complete records: the
truncated container is still accepted by decryptToBlob, which returns the
decryption of the remaining prefix with no error, whatever the advisory
metadata size field says — decryptToBlob performs no size check. -/
theorem c9_truncation_accepted {Key : Type} (env : VaultEnv Key) (key : Key)
    (meta : BaseMeta) (recs : List (Bytes × Bytes)) (k : Nat) (cc : Bool)
    (f g : Bytes × Bytes → Bytes)
    (hparse : env.metaCodec.parse (env.metaCodec.stringify meta) = some meta)
    (hlen : (env.metaCodec.stringify meta).length < 4294967296)
    (hty : meta.type = ContentType.blob)
    (h2 : 2 ≤ recs.length) (hk : k ≤ recs.length)
    (hiv : ∀ r ∈ recs, r.1.length = IV_BYTES)
    (hct : ∀ r ∈ recs, r.2.length < 4294967296)
    (hdec : ∀ r ∈ recs, env.aeadDecrypt key r.1 r.2
      (env.textEncode (ALG ++ "|blob|v" ++ toString VERSION ++ "|" ++
        metaMime meta)) = some (f r))
    (hdc : ∀ r ∈ recs, maybeDecompress env.binding (f r) cc = .ok (g r)) :
    decryptToBlob env key
        (packContainer env.metaCodec cc true meta
          (concatU8 ((recs.take k).map (fun r => recordBytes r.1 r.2))))
        (fun _ => false) =
      .ok ⟨concatU8 ((recs.take k).map g), metaMime meta⟩ := by
  have hunp := unpack_pack env.metaCodec cc true meta
    (concatU8 ((recs.take k).map (fun r => recordBytes r.1 r.2))) hparse hlen
  rw [decryptToBlob_dispatch env key _ (fun _ => false) _ hunp hty]
  simp only [Bool.not_true, Bool.false_and, Bool.false_eq_true, if_false]
  rw [decryptBlobLoop_records env key _ cc f g (recs.take k) _ 0 0
    (by rw [List.drop_zero])
    (fun r hr => hiv r (List.take_subset _ _ hr))
    (fun r hr => hct r (List.take_subset _ _ hr))
    (fun r hr => hdec r (List.take_subset _ _ hr))
    (fun r hr => hdc r (List.take_subset _ _ hr))]

/-- Witness for C9: a three-record container truncated to its first two
records decrypts successfully to the first two plaintexts. -/
theorem c9_truncation_accepted_witness :
    2 ≤ ([(iv12, [5]), (iv12, [6]), (iv12, [7])] : List (Bytes × Bytes)).length ∧
    decryptToBlob idEnv ()
        (packContainer testMetaCodec false true metaB
          (concatU8 ((([(iv12, [5]), (iv12, [6]), (iv12, [7])] :
            List (Bytes × Bytes)).take 2).map (fun r => recordBytes r.1 r.2))))
        (fun _ => false) =
      .ok ⟨concatU8 ((([(iv12, [5]), (iv12, [6]), (iv12, [7])] :
        List (Bytes × Bytes)).take 2).map Prod.snd), metaMime metaB⟩ :=
  ⟨by decide,
    c9_truncation_accepted idEnv () metaB [(iv12, [5]), (iv12, [6]), (iv12, [7])]
      2 false Prod.snd Prod.snd (by decide) (by decide) (by decide) (by decide)
      (by decide) (by decide) (by decide) (fun r hr => rfl) (fun r hr => rfl)⟩

/-- C10: the single-shot decrypt branch is taken exactly when the chunked
flag is clear and the metadata single field is truthy; every other blob
container is parsed by the chunked-record loop.  In particular a
non-chunked container whose metadata merely lacks a truthy single marker is
fed to the record loop, so a well-formed single-shot payload too short to
frame as a record fails with the corrupted-chunk error rather than being
rejected as wrong shape or decrypted single-shot. -/
theorem c10_single_routing {Key : Type} (env : VaultEnv Key) (key : Key) :
    (∀ (packed : List Char) (signal : Nat → Bool) (pc : PackedContainer),
      unpackContainer env.metaCodec packed = .ok pc →
      pc.meta.type = ContentType.blob →
      decryptToBlob env key packed signal =
        (if !pc.isChunked && pc.meta.single.getD false then
          decryptBlobSingle env key pc.meta pc.payloadU8 (metaMime pc.meta)
            (env.textEncode (ALG ++ "|blob|v" ++ toString VERSION ++ "|" ++
              metaMime pc.meta)) signal
        else
          match decryptBlobLoop env key
              (env.textEncode (ALG ++ "|blob|v" ++ toString VERSION ++ "|" ++
                metaMime pc.meta)) pc.compressed pc.payloadU8 signal 0 0 with
          | .error e => .error e
          | .ok parts => .ok ⟨concatU8 parts, metaMime pc.meta⟩)) ∧
    (∀ (meta : BaseMeta) (p : Bytes) (cc : Bool),
      env.metaCodec.parse (env.metaCodec.stringify meta) = some meta →
      (env.metaCodec.stringify meta).length < 4294967296 →
      meta.type = ContentType.blob →
      meta.single.getD false = false →
      0 < p.length →
      p.length < 4 + IV_BYTES + readU32be p 0 →
      decryptToBlob env key (packContainer env.metaCodec cc false meta p)
          (fun _ => false) =
        .error (if p.length < 4 then VaultError.corruptedChunkLen
          else VaultError.corruptedChunkData)) := by
  constructor
  · intro packed signal pc hunp hty
    exact decryptToBlob_dispatch env key packed signal pc hunp hty
  · intro meta p cc hparse hlen hty hsingle hpos hshort
    have hunp := unpack_pack env.metaCodec cc false meta p hparse hlen
    rw [decryptToBlob_dispatch env key _ (fun _ => false)
      ⟨cc, false, meta, p⟩ hunp hty]
    dsimp only
    rw [hsingle]
    simp only [Bool.not_false, Bool.true_and, Bool.false_eq_true, if_false]
    unfold decryptBlobLoop
    rw [dif_pos (by omega : (0 : Nat) < p.length)]
    simp only [Bool.false_eq_true, if_false]
    by_cases hp4 : p.length < 4
    · rw [if_pos (by omega : p.length < 0 + 4)]
      rw [if_pos hp4]
    · rw [if_neg (by omega : ¬p.length < 0 + 4)]
      rw [if_pos (show p.length < 0 + 4 + IV_BYTES + readU32be p 0 from by
        simp only [IV_BYTES] at hshort ⊢
        omega)]
      rw [if_neg hp4]

/-- Witness for C10: routing at a single-marked container, and the
corrupted-chunk failure of a non-chunked container lacking the single
marker on a 3-byte payload. -/
theorem c10_single_routing_witness :
    metaB.single.getD false = false ∧
    (decryptToBlob idEnv ()
        (packContainer testMetaCodec false false metaBS [1, 2, 3])
        (fun _ => false) =
      (if !(false : Bool) && metaBS.single.getD false then
        decryptBlobSingle idEnv () metaBS [1, 2, 3] (metaMime metaBS)
          (idEnv.textEncode (ALG ++ "|blob|v" ++ toString VERSION ++ "|" ++
            metaMime metaBS)) (fun _ => false)
      else
        match decryptBlobLoop idEnv ()
            (idEnv.textEncode (ALG ++ "|blob|v" ++ toString VERSION ++ "|" ++
              metaMime metaBS)) false [1, 2, 3] (fun _ => false) 0 0 with
        | .error e => .error e
        | .ok parts => .ok ⟨concatU8 parts, metaMime metaBS⟩)) ∧
    (decryptToBlob idEnv ()
        (packContainer testMetaCodec false false metaB [0, 0, 1])
        (fun _ => false) =
      .error (if ([0, 0, 1] : Bytes).length < 4 then VaultError.corruptedChunkLen
        else VaultError.corruptedChunkData)) :=
  ⟨by decide,
    (c10_single_routing idEnv ()).1 _ (fun _ => false)
      ⟨false, false, metaBS, [1, 2, 3]⟩
      (unpack_pack testMetaCodec false false metaBS [1, 2, 3] (by decide)
        (by decide)) (by decide),
    (c10_single_routing idEnv ()).2 metaB [0, 0, 1] false (by decide) (by decide)
      (by decide) (by decide) (by decide) (by decide)⟩

/-- Witness for the amended C5 at the concrete clamped container. -/
theorem c5_meta_clamped_witness :
    c5input.length ≤ 11 + readU32be c5input 7 ∧
    unpackContainerBytes testMetaCodec c5input =
      match testMetaCodec.parse (c5input.drop 11) with
      | none => .error .malformedMetadata
      | some meta => .ok ⟨decide ((c5input.getD 5 0).val &&& 1 ≠ 0),
          decide ((c5input.getD 5 0).val &&& 2 ≠ 0), meta, []⟩ :=
  ⟨by decide,
    c5_meta_clamped testMetaCodec c5input (by decide) (by decide) (by decide)
      (by decide)⟩

end CryptoVault
